import Mathlib

/-!
Verification of the claude-warden shell-command parser and default
configuration.

The development shallowly embeds `src/parser.ts` (the `parseCommand`
pipeline: heredoc preprocessing, AST walking, `sh -c` unwrapping) and
`src/defaults.ts` (`DEFAULT_CONFIG`).  The third-party `bash-parser`
library is abstracted as an oracle `String → Option (List AstNode)`
(`none` models a thrown parse error); recursion through the oracle is
made total with an explicit fuel parameter, `none` of the outer
`Option` marking fuel exhaustion only.  The rule matcher and layered
evaluator are not part of the sources; they are modelled from the
specification and marked as such.
-/

namespace Warden

/-- Single-quote character (written by code to avoid escape ambiguity). -/
def squote : Char := Char.ofNat 39

/-- Double-quote character. -/
def dquote : Char := Char.ofNat 34

/-- JavaScript `\s` character class, restricted to the ASCII whitespace
characters (the exotic Unicode members are immaterial here). -/
def isRegexSpace (c : Char) : Bool :=
  c = ' ' || c = '\t' || c = '\n' || c = '\r' || c = Char.ofNat 11 || c = Char.ofNat 12

/-- JavaScript `\w` character class: `[A-Za-z0-9_]`. -/
def isWordChar (c : Char) : Bool :=
  c.isAlphanum || c = '_'

/-- JavaScript `String.prototype.trim` on a character list. -/
def jsTrimList (cs : List Char) : List Char :=
  ((cs.dropWhile isRegexSpace).reverse.dropWhile isRegexSpace).reverse

/-- JavaScript `String.prototype.trim`. -/
def jsTrim (s : String) : String :=
  String.mk (jsTrimList s.toList)

/-- `input.split('\n')[0]`: everything before the first newline. -/
def jsFirstLine (s : String) : String :=
  String.mk (s.toList.takeWhile (fun c => c ≠ '\n'))

/-- Node.js `path.posix.basename` (no suffix argument): drop trailing
slashes, then keep the last path segment; all-slash and empty inputs
give the empty string. -/
def basename (p : String) : String :=
  let rev := p.toList.reverse
  let noTrail := rev.dropWhile (fun c => c = '/')
  String.mk ((noTrail.takeWhile (fun c => c ≠ '/')).reverse)

/-- Does the regex `<<-?\s*['"]?\w+` match starting exactly here?  This
is the operative prefix of both `HEREDOC_REGEX` and the first-line
strip pattern of `parser.ts`; the trailing `['"]?` of those regexes is
vacuous for matching purposes. -/
def heredocStartAt (cs : List Char) : Bool :=
  match cs with
  | '<' :: '<' :: rest =>
    let rest1 := match rest with
      | '-' :: r => r
      | r => r
    let rest2 := rest1.dropWhile isRegexSpace
    let rest3 := match rest2 with
      | c :: r => if c = squote || c = dquote then r else rest2
      | [] => rest2
    match rest3 with
    | c :: _ => isWordChar c
    | [] => false
  | _ => false

/-- `HEREDOC_REGEX.test(input)`: the pattern `<<-?\s*['"]?\w+['"]?`
matches somewhere in the string. -/
def hasHeredocMarkerList : List Char → Bool
| [] => false
| c :: rest => heredocStartAt (c :: rest) || hasHeredocMarkerList rest

/-- `HEREDOC_REGEX.test` on a string. -/
def heredocTest (s : String) : Bool :=
  hasHeredocMarkerList s.toList

/-- `firstLine.replace(/<<-?\s*['"]?\w+['"]?.*$/, '')`: truncate at the
leftmost position where the heredoc-start pattern matches (`.*$` always
matches the rest of a newline-free line). -/
def stripHeredocFrom : List Char → List Char
| [] => []
| c :: rest => if heredocStartAt (c :: rest) then [] else c :: stripHeredocFrom rest

/-- First-line heredoc suffix strip, as a string. -/
def stripHeredocSuffix (s : String) : String :=
  String.mk (stripHeredocFrom s.toList)

/-- The lazy tail `([\s\S]*?)\n\1\s*\)` of the cat-heredoc regex: scan
for the first newline followed by the literal marker, then `\s*`, then
a closing parenthesis; return the remainder after that parenthesis. -/
def findHeredocEnd (marker : List Char) : List Char → Option (List Char)
| [] => none
| '\n' :: r =>
  if marker.isPrefixOf r then
    let r2 := (r.drop marker.length).dropWhile isRegexSpace
    match r2 with
    | ')' :: r3 => some r3
    | _ => findHeredocEnd marker r
  else findHeredocEnd marker r
| _ :: r => findHeredocEnd marker r

/-- Try to match `\$\(cat\s+<<-?\s*['"]?(\w+)['"]?\n([\s\S]*?)\n\1\s*\)`
at the head of the list; on success return the remainder after the
match. -/
def matchCatHeredocAt (cs : List Char) : Option (List Char) :=
  match cs with
  | '$' :: '(' :: 'c' :: 'a' :: 't' :: rest =>
    match rest with
    | c :: rest1 =>
      if isRegexSpace c then
        let rest2 := rest1.dropWhile isRegexSpace
        match rest2 with
        | '<' :: '<' :: rest3 =>
          let rest4 := match rest3 with
            | '-' :: r => r
            | r => r
          let rest5 := rest4.dropWhile isRegexSpace
          let rest6 := match rest5 with
            | c2 :: r => if c2 = squote || c2 = dquote then r else rest5
            | [] => rest5
          let marker := rest6.takeWhile isWordChar
          let rest7 := rest6.dropWhile isWordChar
          if marker.isEmpty then none
          else
            let rest8 := match rest7 with
              | c3 :: r => if c3 = squote || c3 = dquote then r else rest7
              | [] => rest7
            match rest8 with
            | '\n' :: body => findHeredocEnd marker body
            | _ => none
        | _ => none
      else none
    | [] => none
  | _ => none

/-- The placeholder `'__HEREDOC_TEXT__'` used by `preprocessCatHeredocs`. -/
def placeholderChars : List Char := "__HEREDOC_TEXT__".toList

/-- Left-to-right global replacement of cat-heredoc matches, JS
`String.prototype.replace` with a `g` regex: on a match, emit the
placeholder and continue after the matched region; otherwise keep the
character and move one position right.  Fuel is the input length; every
match consumes at least one character, so the fuel never runs out. -/
def preprocessAux : Nat → List Char → List Char
| 0, cs => cs
| _ + 1, [] => []
| f + 1, c :: rest =>
  match matchCatHeredocAt (c :: rest) with
  | some rem => placeholderChars ++ preprocessAux f rem
  | none => c :: preprocessAux f rest

/-- `preprocessCatHeredocs` of `parser.ts`: rewrite every
`$(cat <<MARKER ... MARKER)` occurrence to `__HEREDOC_TEXT__`. -/
def preprocessCatHeredocs (s : String) : String :=
  String.mk (preprocessAux s.toList.length s.toList)

/-- Expansion node carried by a word.  The code reads only the node
type and, for `CommandExpansion`, the `command` string (absent modelled
as `""`, which JS truthiness treats identically). -/
inductive Expansion where
| cmdExp (command : String) : Expansion
| otherExp (ty : String) : Expansion
deriving Repr, DecidableEq

/-- A `Word` AST node: its text plus its (possibly empty) expansion
list; an absent `expansion` field behaves like an empty list. -/
structure Word where
  text : String
  expansion : List Expansion
deriving Repr, DecidableEq

/-- An entry of a Command node's `prefix` array: an `AssignmentWord`
(text plus an expansion list the parser code never reads) or any other
node kind, identified by its `type` string. -/
inductive PfxItem where
| assignment (text : String) (expansion : List Expansion) : PfxItem
| otherPfx (ty : String) : PfxItem
deriving Repr, DecidableEq

/-- An entry of a Command node's `suffix` array: a `Word` or any other
node kind (redirect operators such as `dless`), identified by its
`type` string. -/
inductive SfxItem where
| word (w : Word) : SfxItem
| otherSfx (ty : String) : SfxItem
deriving Repr, DecidableEq

/-- The control-flow node kinds the walker flags as subshells. -/
inductive CtrlKind where
| ifK | forK | whileK | untilK | caseK | functionK
deriving Repr, DecidableEq

/-- The AST node kinds `parser.ts` distinguishes.  `ctrl` covers
`If`/`For`/`While`/`Until`/`Case`/`Function` (children retained: the
generic heredoc scan descends into them even though the walker does
not); `other` covers every remaining node type. -/
inductive AstNode where
| command (nm : Option Word) (ps : List PfxItem) (ss : List SfxItem) : AstNode
| pipeline (cs : List AstNode) : AstNode
| logical (l r : AstNode) : AstNode
| subshell (cs : List AstNode) : AstNode
| ctrl (k : CtrlKind) (cs : List AstNode) : AstNode
| other (ty : String) (cs : List AstNode) : AstNode
deriving Repr

/-- `ParsedCommand` of `types.ts`: one atomic invocation. -/
structure ParsedCommand where
  command : String
  args : List String
  envPrefixes : List String
  raw : String
deriving Repr, DecidableEq

/-- `ParseResult` of `types.ts`. -/
structure ParseResult where
  commands : List ParsedCommand
  hasSubshell : Bool
  subshellCommands : List String
  parseError : Bool
deriving Repr, DecidableEq

/-- The mutable `WalkResult` accumulator of `parser.ts`, passed as an
explicit value. -/
structure WalkResult where
  commands : List ParsedCommand
  hasSubshell : Bool
  subshellCommands : List String
deriving Repr, DecidableEq

/-- `convertCommand` of `parser.ts`, taking the fields of a Command
node: basename-normalise the name, gather `AssignmentWord` prefixes and
`Word` suffixes, and reconstruct `raw` by joining with spaces. -/
def convertCommand (nm : Option Word) (ps : List PfxItem) (ss : List SfxItem) :
    Option ParsedCommand :=
  match nm with
  | none => none
  | some w =>
    let command := if w.text.toList.contains '/' then basename w.text else w.text
    let envPrefixes := ps.filterMap fun p =>
      match p with
      | .assignment t _ => some t
      | .otherPfx _ => none
    let args := ss.filterMap fun s =>
      match s with
      | .word wd => some wd.text
      | .otherSfx _ => none
    let raw := String.intercalate " " (envPrefixes ++ [w.text] ++ args)
    some ⟨command, args, envPrefixes, raw⟩

/-- Inner command strings of the `CommandExpansion` entries of one
word, skipping falsy (empty) command strings. -/
def wordCmdExpansions (w : Word) : List String :=
  w.expansion.filterMap fun e =>
    match e with
    | .cmdExp c => if c = "" then none else some c
    | .otherExp _ => none

/-- `collectCommandExpansions` of `parser.ts`: suffix words first (in
order), then the name word. -/
def collectCommandExpansions (nm : Option Word) (ss : List SfxItem) : List String :=
  (ss.filterMap fun s =>
    match s with
    | .word wd => some (wordCmdExpansions wd)
    | .otherSfx _ => none).flatten ++
  (match nm with
   | some w => wordCmdExpansions w
   | none => [])

/-- Initial walk accumulator. -/
def emptyWalk : WalkResult := ⟨[], false, []⟩

mutual

/-- `walkNode` of `parser.ts`, with the recursive `parseCommand`
re-entry abstracted as `inner` (a `none` result of `inner` is fuel
exhaustion and propagates). -/
def walkNode (inner : String → Option ParseResult) :
    AstNode → WalkResult → Option WalkResult
| .command nm _ps ss, acc =>
  let exps := collectCommandExpansions nm ss
  let acc1 : WalkResult :=
    if exps.isEmpty then acc
    else ⟨acc.commands, true, acc.subshellCommands ++ exps⟩
  match convertCommand nm _ps ss with
  | none => some acc1
  | some parsed =>
    if (parsed.command = "sh" || parsed.command = "bash" || parsed.command = "zsh") &&
        decide (parsed.args.length ≥ 2) && parsed.args.headD "" = "-c" then
      match inner (parsed.args.getD 1 "") with
      | none => none
      | some innerResult =>
        if innerResult.parseError then
          some ⟨acc1.commands ++ [parsed], acc1.hasSubshell, acc1.subshellCommands⟩
        else
          some ⟨acc1.commands ++ innerResult.commands,
                acc1.hasSubshell || innerResult.hasSubshell,
                acc1.subshellCommands ++ innerResult.subshellCommands⟩
    else
      some ⟨acc1.commands ++ [parsed], acc1.hasSubshell, acc1.subshellCommands⟩
| .pipeline cs, acc => walkNodes inner cs acc
| .logical l r, acc =>
  match walkNode inner l acc with
  | none => none
  | some acc2 => walkNode inner r acc2
| .subshell cs, acc => walkNodes inner cs ⟨acc.commands, true, acc.subshellCommands⟩
| .ctrl _ _, acc => some ⟨acc.commands, true, acc.subshellCommands⟩
| .other _ _, acc => some acc

/-- Walk a list of sibling nodes left to right, threading the
accumulator (the `for` loops over `commands` arrays in `parser.ts`). -/
def walkNodes (inner : String → Option ParseResult) :
    List AstNode → WalkResult → Option WalkResult
| [], acc => some acc
| n :: rest, acc =>
  match walkNode inner n acc with
  | none => none
  | some acc2 => walkNodes inner rest acc2

end

/-- `hasHeredocRedirect` of `parser.ts`: a suffix entry of type `dless`
or `dlessdash`. -/
def hasHeredocRedirect (ss : List SfxItem) : Bool :=
  ss.any fun s =>
    match s with
    | .word _ => false
    | .otherSfx ty => ty = "dless" || ty = "dlessdash"

mutual

/-- The `check` helper of `astHasHeredoc`: detect a heredoc redirect on
any Command node, recursing generically into child nodes but never into
`expansion`/`commandAST` fields (word expansions hold no child nodes
here for exactly that reason). -/
def nodeHasHeredoc : AstNode → Bool
| .command _ _ ss => hasHeredocRedirect ss
| .pipeline cs => nodesHaveHeredoc cs
| .logical l r => nodeHasHeredoc l || nodeHasHeredoc r
| .subshell cs => nodesHaveHeredoc cs
| .ctrl _ cs => nodesHaveHeredoc cs
| .other _ cs => nodesHaveHeredoc cs

/-- `check` over a list of child nodes. -/
def nodesHaveHeredoc : List AstNode → Bool
| [] => false
| n :: rest => nodeHasHeredoc n || nodesHaveHeredoc rest

end

/-- `astHasHeredoc` of `parser.ts`, over the script's command list. -/
def astHasHeredocL (cmds : List AstNode) : Bool :=
  nodesHaveHeredoc cmds

/-- The abstract `bash-parser` library: maps an input string to the
`commands` array of the parsed `Script` node, or `none` when `parse`
throws. -/
def POracle : Type := String → Option (List AstNode)

/-- `parseCommand` of `parser.ts`, with explicit fuel for its
self-recursion through `sh -c` unwrapping.  The outer `none` signals
fuel exhaustion only; every code path of the original returns a
`ParseResult` (the function never throws). -/
def parseCommandFuelO : Nat → POracle → String → Option ParseResult
| 0, _, _ => none
| f + 1, p, input0 =>
  if (jsTrim input0).isEmpty then some ⟨[], false, [], false⟩
  else
    let input := preprocessCatHeredocs input0
    match p input with
    | some cmds =>
      if astHasHeredocL cmds then
        let firstLine := jsFirstLine input
        let cmdPart := jsTrim (stripHeredocSuffix firstLine)
        if cmdPart.isEmpty then some ⟨[], false, [], true⟩
        else
          match p cmdPart with
          | some cmds2 =>
            match walkNodes (parseCommandFuelO f p) cmds2 emptyWalk with
            | some r => some ⟨r.commands, true, r.subshellCommands, false⟩
            | none => none
          | none => some ⟨[], true, [], true⟩
      else
        match walkNodes (parseCommandFuelO f p) cmds emptyWalk with
        | some r => some ⟨r.commands, r.hasSubshell, r.subshellCommands, false⟩
        | none => none
    | none =>
      if heredocTest input then
        let firstLine := jsFirstLine input
        let cmdPart := jsTrim (stripHeredocSuffix firstLine)
        if cmdPart.isEmpty then some ⟨[], true, [], true⟩
        else
          match p cmdPart with
          | some cmds2 =>
            match walkNodes (parseCommandFuelO f p) cmds2 emptyWalk with
            | some r => some ⟨r.commands, true, r.subshellCommands, false⟩
            | none => none
          | none => some ⟨[], true, [], true⟩
      else some ⟨[], false, [], true⟩

/-- The three decisions. -/
inductive Decision where
| allow | ask | deny
deriving Repr, DecidableEq

/-- Inclusive bounds of an `argCount` match. -/
structure ArgCountSpec where
  min : Option Nat
  max : Option Nat

/-- A `MatchSpec`: each regex of the configuration is embedded as the
`String → Bool` predicate it denotes (patterns written `^...$` in the
source are full matches, the rest are searches). -/
structure MatchSpec where
  anyArgMatches : Option (List (String → Bool))
  argsMatch : Option (List (String → Bool))
  noArgs : Option Bool
  argCount : Option ArgCountSpec
  not : Bool

/-- An `ArgPattern` of the configuration. -/
structure ArgPattern where
  matchSpec : MatchSpec
  decision : Decision
  reason : Option String
  description : Option String

/-- A `CommandRule` (`dflt` embeds the source field `default`). -/
structure CommandRule where
  command : String
  dflt : Decision
  argPatterns : List ArgPattern

/-- A global deny pattern: regex (as predicate) plus reason. -/
structure GlobalDenyPattern where
  pat : String → Bool
  reason : String

/-- The merged configuration view the evaluator reads (the built-in
`DEFAULT_CONFIG` has a single layer and defines no `globalDeny`). -/
structure MergedConfig where
  defaultDecision : Decision
  askOnSubshell : Bool
  globalDeny : List GlobalDenyPattern
  alwaysAllow : List String
  alwaysDeny : List String
  trustedSSHHosts : List String
  trustedDockerContainers : List String
  trustedKubectlContexts : List String
  trustedSprites : List String
  rules : List CommandRule

/-- Modelled from the spec: the rule matcher of §4.2 (its source is not
under `src/`).  All present predicates are conjoined; `not` inverts the
outcome; an empty spec matches unconditionally. -/
def matchesSpec (ms : MatchSpec) (inv : ParsedCommand) : Bool :=
  let conj :=
    (match ms.anyArgMatches with
     | none => true
     | some pats => inv.args.any fun a => pats.any fun pr => pr a) &&
    (match ms.argsMatch with
     | none => true
     | some pats => pats.any fun pr => pr inv.raw) &&
    (match ms.noArgs with
     | none => true
     | some b => b = inv.args.isEmpty) &&
    (match ms.argCount with
     | none => true
     | some ac =>
       (match ac.min with
        | none => true
        | some m => decide (m ≤ inv.args.length)) &&
       (match ac.max with
        | none => true
        | some m => decide (inv.args.length ≤ m)))
  if ms.not then !conj else conj

/-- Modelled from the spec: `CommandRule` evaluation of §4.2 — first
matching arg pattern wins, otherwise the rule's default. -/
def evalRule (rule : CommandRule) (inv : ParsedCommand) : Decision × Option String :=
  match rule.argPatterns.find? (fun ap => matchesSpec ap.matchSpec inv) with
  | some ap => (ap.decision, ap.reason)
  | none => (rule.dflt, none)

/-- Modelled from the spec: the layered evaluator of §4.3 (its source
is not under `src/`): global deny on the original input, then
always-deny, always-allow, the first per-command rule, then the
default decision. -/
def evaluateInvocation (cfg : MergedConfig) (originalInput : String)
    (inv : ParsedCommand) : Decision × Option String :=
  match cfg.globalDeny.find? (fun g => g.pat originalInput) with
  | some g => (Decision.deny, some g.reason)
  | none =>
    if cfg.alwaysDeny.contains inv.command then (Decision.deny, none)
    else if cfg.alwaysAllow.contains inv.command then (Decision.allow, none)
    else
      match cfg.rules.find? (fun r => r.command = inv.command) with
      | some r => evalRule r inv
      | none => (cfg.defaultDecision, none)

/-- The source's `anyArgMatchesPattern`: the regex `^(a|b|...)$` built
from literal alternatives denotes membership in the list. -/
def anyArgMatchesPattern (items : List String) : String → Bool :=
  fun s => items.contains s

/-- The regex `^--(version|help)$`. -/
def reVersionHelpLong : String → Bool :=
  fun s => s = "--version" || s = "--help"

/-- The regex `^-[vh]$`. -/
def reShortVH : String → Bool :=
  fun s => s = "-v" || s = "-h"

/-- Substring search for `A\s+B` (literal `A`, one or more whitespace,
literal `B`) starting at this position. -/
def gapMatchAt (a b : List Char) (cs : List Char) : Bool :=
  a.isPrefixOf cs &&
    (let r := cs.drop a.length
     !(r.takeWhile isRegexSpace).isEmpty && b.isPrefixOf (r.dropWhile isRegexSpace))

/-- Substring search for `A\s+B` anywhere in the list. -/
def searchGapList (a b : List Char) : List Char → Bool
| [] => false
| c :: rest => gapMatchAt a b (c :: rest) || searchGapList a b rest

/-- Substring search for `A\s+B` anywhere in a string (the regexes
`push\s+--force`, `reset\s+--hard`, `-R\s+777`, `repo\s+delete`,
`repo\s+archive`). -/
def searchGap (a b : String) (s : String) : Bool :=
  searchGapList a.toList b.toList s.toList

/-- Like `gapMatchAt` but with a trailing word boundary `\b` after `B`
(for `push\s+-f\b`). -/
def gapMatchAtB (a b : List Char) (cs : List Char) : Bool :=
  a.isPrefixOf cs &&
    (let r := cs.drop a.length
     !(r.takeWhile isRegexSpace).isEmpty &&
       (let r2 := r.dropWhile isRegexSpace
        b.isPrefixOf r2 &&
          (match r2.drop b.length with
           | [] => true
           | c :: _ => !isWordChar c)))

/-- Substring search for `A\s+B\b` anywhere in the list. -/
def searchGapListB (a b : List Char) : List Char → Bool
| [] => false
| c :: rest => gapMatchAtB a b (c :: rest) || searchGapListB a b rest

/-- Substring search for `A\s+B\b` anywhere in a string. -/
def searchGapB (a b : String) (s : String) : Bool :=
  searchGapListB a.toList b.toList s.toList

/-- Does `-[^\s]*A[^\s]*B` match at this position?  Equivalent to: a
dash here, and inside the following run of non-whitespace characters an
`A` occurs with a `B` somewhere after it. -/
def dashRunPairAt (a b : Char) (cs : List Char) : Bool :=
  match cs with
  | '-' :: rest =>
    let run := rest.takeWhile (fun c => !isRegexSpace c)
    match run.dropWhile (fun c => c ≠ a) with
    | [] => false
    | _ :: tl => tl.contains b
  | _ => false

/-- Substring search for `-[^\s]*A[^\s]*B`. -/
def searchDashPairList (a b : Char) : List Char → Bool
| [] => false
| c :: rest => dashRunPairAt a b (c :: rest) || searchDashPairList a b rest

/-- The `rm` recursive-force regex
`-[^\s]*r[^\s]*f|-[^\s]*f[^\s]*r`, searched inside `raw`. -/
def reRecursiveForce (s : String) : Bool :=
  searchDashPairList 'r' 'f' s.toList || searchDashPairList 'f' 'r' s.toList

/-- Does `-[^\s]*A` match at this position? -/
def dashRunOneAt (a : Char) (cs : List Char) : Bool :=
  match cs with
  | '-' :: rest => (rest.takeWhile (fun c => !isRegexSpace c)).contains a
  | _ => false

/-- Substring search for `-[^\s]*A`. -/
def searchDashOneList (a : Char) : List Char → Bool
| [] => false
| c :: rest => dashRunOneAt a (c :: rest) || searchDashOneList a rest

/-- The `rm` recursive regex `-[^\s]*r`, searched inside `raw`. -/
def reRecursive (s : String) : Bool :=
  searchDashOneList 'r' s.toList

/-- Full match of `A\s+B` (docker's `^(system\s+prune|...)$` family,
matched against a single argument). -/
def twoWordFull (a b : String) (s : String) : Bool :=
  a.toList.isPrefixOf s.toList &&
    (let r := s.toList.drop a.length
     !(r.takeWhile isRegexSpace).isEmpty && r.dropWhile isRegexSpace = b.toList)

/-- `SAFE_DEV_TOOLS` of `defaults.ts`. -/
def SAFE_DEV_TOOLS : List String :=
  ["jest", "vitest", "tsc", "eslint", "prettier", "mkdirp", "concurrently",
   "turbo", "next", "nuxt", "vite", "astro", "playwright", "cypress",
   "mocha", "nyc", "c8", "ts-jest", "tsup", "esbuild", "rollup", "webpack",
   "prisma", "drizzle-kit", "typeorm", "knex", "sequelize-cli",
   "tailwindcss", "postcss", "autoprefixer", "lint-staged", "husky",
   "changeset", "semantic-release", "lerna", "nx",
   "create-react-app", "create-next-app", "create-vite", "degit",
   "storybook", "wrangler", "netlify", "vercel", "json"]

/-- `SCRIPT_RUNNERS` of `defaults.ts`. -/
def SCRIPT_RUNNERS : List String := ["tsx", "ts-node", "nodemon"]

/-- `REGISTRY_OPS` of `defaults.ts`. -/
def REGISTRY_OPS : List String :=
  ["publish", "unpublish", "deprecate", "owner", "access", "token",
   "adduser", "login", "logout"]

/-- `SAFE_PKG_MANAGER_CMDS` of `defaults.ts`. -/
def SAFE_PKG_MANAGER_CMDS : List String :=
  ["install", "add", "remove", "uninstall", "update", "upgrade", "outdated",
   "ls", "list", "run", "test", "start", "build", "init", "create",
   "info", "view", "show", "why", "pack", "cache", "config", "get", "set",
   "version", "help", "exec", "dedupe", "prune", "audit", "completion"]

/-- `VERSION_HELP_FLAGS` of `defaults.ts`. -/
def VERSION_HELP_FLAGS : ArgPattern :=
  ⟨⟨some [reVersionHelpLong, reShortVH], none, none, none, false⟩,
   Decision.allow, none, some "Version/help flags"⟩

/-- `safeDevToolsPattern` of `defaults.ts`. -/
def safeDevToolsPattern : ArgPattern :=
  ⟨⟨some [anyArgMatchesPattern SAFE_DEV_TOOLS], none, none, none, false⟩,
   Decision.allow, none, some "Well-known dev tools"⟩

/-- `scriptRunnersPattern` of `defaults.ts`. -/
def scriptRunnersPattern : ArgPattern :=
  ⟨⟨some [anyArgMatchesPattern SCRIPT_RUNNERS], none, none, none, false⟩,
   Decision.ask, some "Script runners can execute arbitrary code", none⟩

/-- `registryOpsPattern` of `defaults.ts`. -/
def registryOpsPattern : ArgPattern :=
  ⟨⟨some [anyArgMatchesPattern REGISTRY_OPS], none, none, none, false⟩,
   Decision.ask, some "Registry modification", none⟩

/-- `pkgManagerRule` of `defaults.ts`. -/
def pkgManagerRule (command : String) (extraSafeCmds : List String) : CommandRule :=
  ⟨command, Decision.ask,
   [registryOpsPattern,
    ⟨⟨some [anyArgMatchesPattern (SAFE_PKG_MANAGER_CMDS ++ extraSafeCmds)],
      none, none, none, false⟩,
     Decision.allow, none, some ("Standard " ++ command ++ " commands")⟩,
    VERSION_HELP_FLAGS]⟩

/-- `pkgRunnerRule` of `defaults.ts`. -/
def pkgRunnerRule (command : String) : CommandRule :=
  ⟨command, Decision.ask,
   [safeDevToolsPattern, scriptRunnersPattern, VERSION_HELP_FLAGS]⟩

/-- One layer of `DEFAULT_CONFIG`. -/
structure ConfigLayer where
  alwaysAllow : List String
  alwaysDeny : List String
  rules : List CommandRule

/-- `WardenConfig` as instantiated by `defaults.ts` (the object defines
no `globalDeny` key). -/
structure WardenConfig where
  defaultDecision : Decision
  askOnSubshell : Bool
  trustedSSHHosts : List String
  trustedDockerContainers : List String
  trustedKubectlContexts : List String
  trustedSprites : List String
  layers : List ConfigLayer

/-- The `alwaysAllow` list of `DEFAULT_CONFIG`'s single layer. -/
def defaultAlwaysAllow : List String :=
  ["cat", "head", "tail", "less", "more", "wc", "sort", "uniq", "tee",
   "diff", "comm", "cut", "paste", "tr", "fold", "expand", "unexpand",
   "column", "rev", "tac", "nl", "od", "xxd", "file", "stat",
   "grep", "egrep", "fgrep", "rg", "ag", "ack", "find", "fd", "fzf",
   "locate", "which", "whereis", "type", "command",
   "ls", "dir", "tree", "exa", "eza", "lsd",
   "basename", "dirname", "realpath", "readlink",
   "echo", "printf", "true", "false", "test", "[",
   "date", "cal",
   "env", "printenv", "uname", "hostname", "whoami", "id", "pwd",
   "ps", "top", "htop", "uptime", "free", "df", "du", "lsof",
   "sed", "awk", "jq", "yq", "xargs", "seq",
   "bat", "pygmentize", "highlight",
   "nvm", "fnm", "rbenv", "pyenv",
   "stty", "tput", "reset", "clear",
   "cd", "pushd", "popd", "dirs", "hash", "alias",
   "sleep", "wait", "time",
   "md5", "md5sum", "sha256sum", "shasum", "cksum",
   "base64", "openssl"]

/-- The `alwaysDeny` list of `DEFAULT_CONFIG`'s single layer. -/
def defaultAlwaysDeny : List String :=
  ["sudo", "su", "doas",
   "mkfs", "fdisk", "dd",
   "shutdown", "reboot", "halt", "poweroff",
   "iptables", "ip6tables", "nft",
   "useradd", "userdel", "usermod", "groupadd", "groupdel",
   "crontab",
   "systemctl", "service", "launchctl"]

/-- The `rules` list of `DEFAULT_CONFIG`'s single layer, in source
order. -/
def defaultRules : List CommandRule :=
  [⟨"claude", Decision.ask,
    [⟨⟨some [reVersionHelpLong, reShortVH], none, none, none, false⟩,
      Decision.allow, none, some "Version/help flags"⟩]⟩] ++
  (["bash", "sh", "zsh"].map fun cmd =>
    (⟨cmd, Decision.ask,
      [⟨⟨some [reVersionHelpLong], none, none, none, false⟩,
        Decision.allow, none, some "Version/help flags"⟩]⟩ : CommandRule)) ++
  [⟨"node", Decision.ask,
    [⟨⟨some [fun s => s = "-e", fun s => "--eval".isPrefixOf s,
             fun s => s = "-p", fun s => "--print".isPrefixOf s],
       none, none, none, false⟩,
      Decision.ask, some "Evaluating inline code", none⟩,
     ⟨⟨some [reVersionHelpLong, reShortVH], none, none, none, false⟩,
      Decision.allow, none, some "Version/help flags"⟩,
     ⟨⟨none, none, some true, none, false⟩,
      Decision.ask, some "Interactive REPL", none⟩]⟩,
   pkgRunnerRule "npx",
   pkgRunnerRule "bunx",
   pkgManagerRule "npm"
     ["ci", "search", "explain", "prefix", "root", "fund", "doctor",
      "diff", "pkg", "query", "shrinkwrap"],
   pkgManagerRule "pnpm" ["store", "fetch", "doctor", "patch"],
   pkgManagerRule "yarn" ["up", "dlx", "workspaces"],
   ⟨"bun", Decision.ask,
    [⟨⟨some [anyArgMatchesPattern
          (SAFE_PKG_MANAGER_CMDS ++ ["ci", "pm", "x", "link", "unlink"])],
       none, none, none, false⟩,
      Decision.allow, none, some "Standard bun commands"⟩,
     safeDevToolsPattern,
     scriptRunnersPattern,
     VERSION_HELP_FLAGS]⟩] ++
  (["python", "python3"].map fun cmd =>
    (⟨cmd, Decision.ask,
      [⟨⟨some [reVersionHelpLong, fun s => s = "-V"], none, none, none, false⟩,
        Decision.allow, none, none⟩]⟩ : CommandRule)) ++
  [⟨"pip", Decision.allow, []⟩,
   ⟨"pip3", Decision.allow, []⟩,
   ⟨"uv", Decision.allow,
    [⟨⟨some [fun s => s = "publish"], none, none, none, false⟩,
      Decision.ask, some "Publishing to PyPI", none⟩]⟩,
   ⟨"pipx", Decision.ask, []⟩,
   ⟨"git", Decision.allow,
    [⟨⟨none, some [searchGap "push" "--force", searchGapB "push" "-f"],
       none, none, false⟩,
      Decision.ask, some "Force push can overwrite remote history", none⟩,
     ⟨⟨none, some [searchGap "reset" "--hard"], none, none, false⟩,
      Decision.ask, some "Hard reset discards changes", none⟩,
     ⟨⟨some [fun s => s = "clean"], none, none, none, false⟩,
      Decision.ask, some "git clean removes untracked files", none⟩]⟩,
   ⟨"gh", Decision.allow,
    [⟨⟨none, some [searchGap "repo" "delete", searchGap "repo" "archive"],
       none, none, false⟩,
      Decision.ask, some "Destructive repo operation", none⟩]⟩,
   ⟨"make", Decision.allow, []⟩,
   ⟨"cmake", Decision.allow, []⟩,
   ⟨"cargo", Decision.allow,
    [⟨⟨some [anyArgMatchesPattern ["publish", "login", "logout", "owner", "yank"]],
       none, none, none, false⟩,
      Decision.ask, some "Registry modification", none⟩]⟩,
   ⟨"go", Decision.allow,
    [⟨⟨some [fun s => s = "generate"], none, none, none, false⟩,
      Decision.ask, some "go generate runs arbitrary commands", none⟩]⟩,
   ⟨"rustup", Decision.allow, []⟩,
   ⟨"tsc", Decision.allow, []⟩,
   ⟨"turbo", Decision.allow, []⟩,
   ⟨"nx", Decision.allow, []⟩,
   ⟨"lerna", Decision.allow, []⟩,
   ⟨"docker", Decision.ask,
    [⟨⟨some [anyArgMatchesPattern
          ["ps", "images", "logs", "inspect", "stats", "top", "version", "info"]],
       none, none, none, false⟩,
      Decision.allow, none, some "Read-only docker commands"⟩,
     ⟨⟨some [anyArgMatchesPattern
          ["build", "run", "compose", "exec", "pull", "stop", "start",
           "restart", "create"]],
       none, none, none, false⟩,
      Decision.ask, some "Docker state-changing operation", none⟩,
     ⟨⟨some [fun s => twoWordFull "system" "prune" s ||
              twoWordFull "container" "prune" s || twoWordFull "image" "prune" s],
       none, none, none, false⟩,
      Decision.ask, some "Docker prune operations", none⟩]⟩,
   ⟨"docker-compose", Decision.ask, []⟩,
   ⟨"kubectl", Decision.ask, []⟩,
   ⟨"rm", Decision.ask,
    [⟨⟨none, some [reRecursiveForce], none, none, false⟩,
      Decision.ask, some "Recursive force delete (rm -rf)", none⟩,
     ⟨⟨none, some [reRecursive], none, none, false⟩,
      Decision.ask, some "Recursive delete", none⟩,
     ⟨⟨none, none, none, some ⟨none, some 3⟩, false⟩,
      Decision.allow, none, some "Deleting a small number of non-recursive files"⟩]⟩,
   ⟨"mkdir", Decision.allow, []⟩,
   ⟨"touch", Decision.allow, []⟩,
   ⟨"cp", Decision.allow, []⟩,
   ⟨"mv", Decision.allow, []⟩,
   ⟨"ln", Decision.allow, []⟩,
   ⟨"chmod", Decision.ask,
    [⟨⟨none, some [searchGap "-R" "777"], none, none, false⟩,
      Decision.deny, some "Recursively setting world-writable permissions", none⟩]⟩,
   ⟨"chown", Decision.ask, []⟩,
   ⟨"curl", Decision.allow, []⟩,
   ⟨"wget", Decision.allow, []⟩,
   ⟨"ssh", Decision.ask, []⟩,
   ⟨"scp", Decision.ask, []⟩,
   ⟨"rsync", Decision.ask, []⟩,
   ⟨"brew", Decision.allow, []⟩,
   ⟨"apt", Decision.ask, []⟩,
   ⟨"apt-get", Decision.ask, []⟩,
   ⟨"yum", Decision.ask, []⟩,
   ⟨"dnf", Decision.ask, []⟩,
   ⟨"pacman", Decision.ask, []⟩,
   ⟨"terraform", Decision.ask,
    [⟨⟨some [anyArgMatchesPattern
          ["plan", "validate", "fmt", "show", "state", "output",
           "providers", "version", "graph", "console"]],
       none, none, none, false⟩,
      Decision.allow, none, some "Read-only terraform commands"⟩]⟩]

/-- `DEFAULT_CONFIG` of `defaults.ts`. -/
def DEFAULT_CONFIG : WardenConfig :=
  ⟨Decision.ask, true, [], [], [], [],
   [⟨defaultAlwaysAllow, defaultAlwaysDeny, defaultRules⟩]⟩

/-- Modelled from the spec: the merged single view of §3 for a config
whose sole source is the built-in defaults; `DEFAULT_CONFIG` defines no
`globalDeny`, so the merged view has none. -/
def mergedView (cfg : WardenConfig) : MergedConfig :=
  ⟨cfg.defaultDecision, cfg.askOnSubshell, [],
   (cfg.layers.map (·.alwaysAllow)).flatten,
   (cfg.layers.map (·.alwaysDeny)).flatten,
   cfg.trustedSSHHosts, cfg.trustedDockerContainers,
   cfg.trustedKubectlContexts, cfg.trustedSprites,
   (cfg.layers.map (·.rules)).flatten⟩

/-- The merged built-in default configuration. -/
def defaultMerged : MergedConfig := mergedView DEFAULT_CONFIG

example :
    (evaluateInvocation defaultMerged "rm -rf x" ⟨"rm", ["-rf", "x"], [], "rm -rf x"⟩).1 =
      Decision.ask := by decide

example :
    (evaluateInvocation defaultMerged "rm a" ⟨"rm", ["a"], [], "rm a"⟩).1 =
      Decision.allow := by decide

example :
    (evaluateInvocation defaultMerged "sudo ls" ⟨"sudo", ["ls"], [], "sudo ls"⟩).1 =
      Decision.deny := by decide

example :
    (evaluateInvocation defaultMerged "ls -la" ⟨"ls", ["-la"], [], "ls -la"⟩).1 =
      Decision.allow := by decide

example :
    (evaluateInvocation defaultMerged "chmod -R 777 /"
      ⟨"chmod", ["-R", "777", "/"], [], "chmod -R 777 /"⟩).1 = Decision.deny := by decide

/-- All `CommandExpansion` command strings of one word, truthiness
filter included. -/
def wordAllCmdSubs (w : Word) : List String :=
  wordCmdExpansions w

mutual

/-- Command-substitution strings the walker actually collects below a
node: `collectCommandExpansions` of every Command node the walk visits
(control-flow bodies and unknown node kinds are not descended into). -/
def reachableExps : AstNode → List String
| .command nm _ ss => collectCommandExpansions nm ss
| .pipeline cs => reachableExpsList cs
| .logical l r => reachableExps l ++ reachableExps r
| .subshell cs => reachableExpsList cs
| .ctrl _ _ => []
| .other _ _ => []

def reachableExpsList : List AstNode → List String
| [] => []
| n :: rest => reachableExps n ++ reachableExpsList rest

end

mutual

/-- Command-substitution strings carried by any word of the AST — the
claim's notion of "any command word carries a command-substitution
expansion", which, unlike `reachableExps`, also sees the expansion
lists of `AssignmentWord` prefixes. -/
def allCmdExpansions : AstNode → List String
| .command nm ps ss =>
  (ps.filterMap fun p =>
    match p with
    | .assignment _ ex =>
      some (ex.filterMap fun e =>
        match e with
        | .cmdExp c => if c = "" then none else some c
        | .otherExp _ => none)
    | .otherPfx _ => none).flatten ++
  collectCommandExpansions nm ss
| .pipeline cs => allCmdExpansionsList cs
| .logical l r => allCmdExpansions l ++ allCmdExpansions r
| .subshell cs => allCmdExpansionsList cs
| .ctrl _ cs => allCmdExpansionsList cs
| .other _ cs => allCmdExpansionsList cs

def allCmdExpansionsList : List AstNode → List String
| [] => []
| n :: rest => allCmdExpansions n ++ allCmdExpansionsList rest

end

mutual

/-- Every word text occurring in a node (names and suffix words,
recursively). -/
def nodeWordTexts : AstNode → List String
| .command nm _ ss =>
  (match nm with
   | some w => [w.text]
   | none => []) ++
  (ss.filterMap fun s =>
    match s with
    | .word wd => some wd.text
    | .otherSfx _ => none)
| .pipeline cs => nodeWordTextsList cs
| .logical l r => nodeWordTexts l ++ nodeWordTexts r
| .subshell cs => nodeWordTextsList cs
| .ctrl _ cs => nodeWordTextsList cs
| .other _ cs => nodeWordTextsList cs

def nodeWordTextsList : List AstNode → List String
| [] => []
| n :: rest => nodeWordTexts n ++ nodeWordTextsList rest

end

/-- The oracle only produces words strictly shorter than the string it
parsed. -/
def wordShrinking (p : POracle) : Prop :=
  ∀ s cmds, p s = some cmds →
    ∀ t, t ∈ nodeWordTextsList cmds → t.length < s.length

/-- The oracle's word texts are unchanged by the cat-heredoc
preprocessor (they contain no `$(cat <<MARKER ... MARKER)` idiom). -/
def wordsInert (p : POracle) : Prop :=
  ∀ s cmds, p s = some cmds →
    ∀ t, t ∈ nodeWordTextsList cmds → preprocessCatHeredocs t = t

/-- The fuelled parser never completes on this oracle and input: the
unrolling is `none` at every fuel, i.e. the recursion does not
terminate. -/
def divergesOn (p : POracle) (s : String) : Prop :=
  ∀ fuel, parseCommandFuelO fuel p s = none

/-- An invocation is well-formed when it arises from some original
executable word `t`: the `command` field is `t` basename-normalised and
`raw` is the space-join of the env prefixes, `t` itself, and the args. -/
def wfInv (inv : ParsedCommand) : Prop :=
  ∃ t, inv.command = (if t.toList.contains '/' then basename t else t) ∧
    inv.raw = String.intercalate " " (inv.envPrefixes ++ [t] ++ inv.args)

/-- Relation between an accumulator and a walk result: taint and the
collected substitution lists only grow, and `exps` ends up collected. -/
def Grows (acc r : WalkResult) (exps : List String) : Prop :=
  (acc.hasSubshell = true → r.hasSubshell = true) ∧
  (∀ c, c ∈ acc.subshellCommands → c ∈ r.subshellCommands) ∧
  (∀ c, c ∈ exps → c ∈ r.subshellCommands) ∧
  (exps ≠ [] → r.hasSubshell = true)

theorem Grows.refl (acc : WalkResult) : Grows acc acc [] :=
  ⟨fun h => h, fun _ hc => hc, fun c hc => absurd hc (List.not_mem_nil c), fun h => absurd rfl h⟩

theorem Grows.trans {a b c : WalkResult} {e1 e2 : List String}
    (h1 : Grows a b e1) (h2 : Grows b c e2) : Grows a c (e1 ++ e2) := by
  obtain ⟨m1, s1, x1, n1⟩ := h1
  obtain ⟨m2, s2, x2, n2⟩ := h2
  refine ⟨fun h => m2 (m1 h), fun d hd => s2 d (s1 d hd), ?_, ?_⟩
  · intro d hd
    rcases List.mem_append.1 hd with hd | hd
    · exact s2 d (x1 d hd)
    · exact x2 d hd
  · intro hne
    by_cases h0 : e1 = []
    · subst h0
      exact n2 (by simpa using hne)
    · exact m2 (n1 h0)

theorem grows_step (acc : WalkResult) (exps : List String) :
    Grows acc
      (if exps.isEmpty then acc
       else ⟨acc.commands, true, acc.subshellCommands ++ exps⟩) exps := by
  by_cases he : exps = []
  · subst he
    simpa using Grows.refl acc
  · rw [if_neg (by simpa using he)]
    exact ⟨fun _ => rfl, fun c hc => List.mem_append_left _ hc,
      fun c hc => List.mem_append_right _ hc, fun _ => rfl⟩

/-- The `Command` case of the walker grows the accumulator by exactly
the expansions `collectCommandExpansions` finds. -/
theorem walkCommand_grows (inner : String → Option ParseResult)
    (nm : Option Word) (ps : List PfxItem) (ss : List SfxItem)
    (acc r : WalkResult) (h : walkNode inner (AstNode.command nm ps ss) acc = some r) :
    Grows acc r (collectCommandExpansions nm ss) := by
  simp only [walkNode] at h
  have hstep := grows_step acc (collectCommandExpansions nm ss)
  generalize hA : (if (collectCommandExpansions nm ss).isEmpty = true then acc
      else ⟨acc.commands, true, acc.subshellCommands ++ collectCommandExpansions nm ss⟩ :
      WalkResult) = a1 at hstep h
  rcases hc : convertCommand nm ps ss with _ | parsed
  · simp only [hc, Option.some_inj] at h
    subst h
    exact hstep
  · simp only [hc] at h
    by_cases hcond : ((decide (parsed.command = "sh") || decide (parsed.command = "bash") ||
        decide (parsed.command = "zsh")) && decide (parsed.args.length ≥ 2) &&
        decide (parsed.args.headD "" = "-c")) = true
    · rw [if_pos hcond] at h
      rcases hi : inner (parsed.args.getD 1 "") with _ | ir
      · simp only [hi] at h
        exact Option.noConfusion h
      · simp only [hi] at h
        by_cases hpe : ir.parseError = true
        · rw [if_pos hpe, Option.some_inj] at h
          subst h
          have hleaf : Grows a1 ⟨a1.commands ++ [parsed], a1.hasSubshell, a1.subshellCommands⟩ [] :=
            ⟨fun hh => hh, fun c hc => hc, fun c hc => absurd hc (List.not_mem_nil c),
             fun hne => absurd rfl hne⟩
          simpa using hstep.trans hleaf
        · rw [if_neg hpe, Option.some_inj] at h
          subst h
          have hleaf : Grows a1
              ⟨a1.commands ++ ir.commands, a1.hasSubshell || ir.hasSubshell,
               a1.subshellCommands ++ ir.subshellCommands⟩ [] :=
            ⟨fun hh => by simp [hh], fun c hc => List.mem_append_left _ hc,
             fun c hc => absurd hc (List.not_mem_nil c), fun hne => absurd rfl hne⟩
          simpa using hstep.trans hleaf
    · rw [if_neg hcond, Option.some_inj] at h
      subst h
      have hleaf : Grows a1 ⟨a1.commands ++ [parsed], a1.hasSubshell, a1.subshellCommands⟩ [] :=
        ⟨fun hh => hh, fun c hc => hc, fun c hc => absurd hc (List.not_mem_nil c),
         fun hne => absurd rfl hne⟩
      simpa using hstep.trans hleaf

mutual

theorem walkNode_grows (inner : String → Option ParseResult) (n : AstNode)
    (acc r : WalkResult) (h : walkNode inner n acc = some r) :
    Grows acc r (reachableExps n) := by
  cases n with
  | command nm ps ss =>
    simpa only [reachableExps] using walkCommand_grows inner nm ps ss acc r h
  | pipeline cs =>
    simp only [walkNode] at h
    simpa only [reachableExps] using walkNodes_grows inner cs acc r h
  | logical l r2 =>
    simp only [walkNode] at h
    rcases hl : walkNode inner l acc with _ | acc2
    · rw [hl] at h
      exact Option.noConfusion h
    · rw [hl] at h
      simpa only [reachableExps] using
        (walkNode_grows inner l acc acc2 hl).trans (walkNode_grows inner r2 acc2 r h)
  | subshell cs =>
    simp only [walkNode] at h
    have h2 := walkNodes_grows inner cs ⟨acc.commands, true, acc.subshellCommands⟩ r h
    obtain ⟨m, s, x, n2⟩ := h2
    exact ⟨fun _ => m rfl, s, by simpa only [reachableExps] using x, fun _ => m rfl⟩
  | ctrl k cs =>
    simp only [walkNode, Option.some_inj] at h
    subst h
    exact ⟨fun _ => rfl, fun c hc => hc, fun c hc => by simp [reachableExps] at hc,
      fun hne => by simp [reachableExps] at hne⟩
  | other ty cs =>
    simp only [walkNode, Option.some_inj] at h
    subst h
    exact ⟨fun hh => hh, fun c hc => hc, fun c hc => by simp [reachableExps] at hc,
      fun hne => by simp [reachableExps] at hne⟩

theorem walkNodes_grows (inner : String → Option ParseResult) (ns : List AstNode)
    (acc r : WalkResult) (h : walkNodes inner ns acc = some r) :
    Grows acc r (reachableExpsList ns) := by
  cases ns with
  | nil =>
    simp only [walkNodes, Option.some_inj] at h
    subst h
    simpa only [reachableExpsList] using Grows.refl acc
  | cons n rest =>
    simp only [walkNodes] at h
    rcases hn : walkNode inner n acc with _ | acc2
    · rw [hn] at h
      exact Option.noConfusion h
    · rw [hn] at h
      simpa only [reachableExpsList] using
        (walkNode_grows inner n acc acc2 hn).trans (walkNodes_grows inner rest acc2 r h)

end

theorem convertCommand_wf (nm : Option Word) (ps : List PfxItem) (ss : List SfxItem)
    (inv : ParsedCommand) (h : convertCommand nm ps ss = some inv) : wfInv inv := by
  cases nm with
  | none => exact Option.noConfusion h
  | some w =>
    simp only [convertCommand, Option.some_inj] at h
    subst h
    exact ⟨w.text, rfl, rfl⟩

/-- Every invocation an `inner` parser produces is well-formed. -/
def innerWF (inner : String → Option ParseResult) : Prop :=
  ∀ s r, inner s = some r → ∀ i ∈ r.commands, wfInv i

theorem walkCommand_wf (inner : String → Option ParseResult) (hw : innerWF inner)
    (nm : Option Word) (ps : List PfxItem) (ss : List SfxItem)
    (acc r : WalkResult) (h : walkNode inner (AstNode.command nm ps ss) acc = some r)
    (hacc : ∀ i ∈ acc.commands, wfInv i) : ∀ i ∈ r.commands, wfInv i := by
  simp only [walkNode] at h
  generalize hA : (if (collectCommandExpansions nm ss).isEmpty = true then acc
      else ⟨acc.commands, true, acc.subshellCommands ++ collectCommandExpansions nm ss⟩ :
      WalkResult) = a1 at h
  have ha1 : a1.commands = acc.commands := by
    rw [← hA]
    split <;> rfl
  rcases hc : convertCommand nm ps ss with _ | parsed
  · simp only [hc, Option.some_inj] at h
    subst h
    rw [ha1]
    exact hacc
  · simp only [hc] at h
    have hparsed : wfInv parsed := convertCommand_wf nm ps ss parsed hc
    by_cases hcond : ((decide (parsed.command = "sh") || decide (parsed.command = "bash") ||
        decide (parsed.command = "zsh")) && decide (parsed.args.length ≥ 2) &&
        decide (parsed.args.headD "" = "-c")) = true
    · rw [if_pos hcond] at h
      rcases hi : inner (parsed.args.getD 1 "") with _ | ir
      · simp only [hi] at h
        exact Option.noConfusion h
      · simp only [hi] at h
        by_cases hpe : ir.parseError = true
        · rw [if_pos hpe, Option.some_inj] at h
          subst h
          intro i hi2
          simp only [ha1] at hi2
          rcases List.mem_append.1 hi2 with hi2 | hi2
          · exact hacc i hi2
          · rw [List.mem_singleton.1 hi2]
            exact hparsed
        · rw [if_neg hpe, Option.some_inj] at h
          subst h
          intro i hi2
          simp only [ha1] at hi2
          rcases List.mem_append.1 hi2 with hi2 | hi2
          · exact hacc i hi2
          · exact hw (parsed.args.getD 1 "") ir hi i hi2
    · rw [if_neg hcond, Option.some_inj] at h
      subst h
      intro i hi2
      simp only [ha1] at hi2
      rcases List.mem_append.1 hi2 with hi2 | hi2
      · exact hacc i hi2
      · rw [List.mem_singleton.1 hi2]
        exact hparsed

mutual

theorem walkNode_wf (inner : String → Option ParseResult) (hw : innerWF inner)
    (n : AstNode) (acc r : WalkResult) (h : walkNode inner n acc = some r)
    (hacc : ∀ i ∈ acc.commands, wfInv i) : ∀ i ∈ r.commands, wfInv i := by
  cases n with
  | command nm ps ss => exact walkCommand_wf inner hw nm ps ss acc r h hacc
  | pipeline cs =>
    simp only [walkNode] at h
    exact walkNodes_wf inner hw cs acc r h hacc
  | logical l r2 =>
    simp only [walkNode] at h
    rcases hl : walkNode inner l acc with _ | acc2
    · simp only [hl] at h
      exact Option.noConfusion h
    · simp only [hl] at h
      exact walkNode_wf inner hw r2 acc2 r h (walkNode_wf inner hw l acc acc2 hl hacc)
  | subshell cs =>
    simp only [walkNode] at h
    exact walkNodes_wf inner hw cs ⟨acc.commands, true, acc.subshellCommands⟩ r h hacc
  | ctrl k cs =>
    simp only [walkNode, Option.some_inj] at h
    subst h
    exact hacc
  | other ty cs =>
    simp only [walkNode, Option.some_inj] at h
    subst h
    exact hacc

theorem walkNodes_wf (inner : String → Option ParseResult) (hw : innerWF inner)
    (ns : List AstNode) (acc r : WalkResult) (h : walkNodes inner ns acc = some r)
    (hacc : ∀ i ∈ acc.commands, wfInv i) : ∀ i ∈ r.commands, wfInv i := by
  cases ns with
  | nil =>
    simp only [walkNodes, Option.some_inj] at h
    subst h
    exact hacc
  | cons n rest =>
    simp only [walkNodes] at h
    rcases hn : walkNode inner n acc with _ | acc2
    · simp only [hn] at h
      exact Option.noConfusion h
    · simp only [hn] at h
      exact walkNodes_wf inner hw rest acc2 r h (walkNode_wf inner hw n acc acc2 hn hacc)

end

/-- Every invocation `parseCommand` ever returns, at any fuel and for
any oracle, is well-formed. -/
theorem parseCommand_wf : ∀ (fuel : Nat) (p : POracle) (input : String) (r : ParseResult),
    parseCommandFuelO fuel p input = some r → ∀ i ∈ r.commands, wfInv i := by
  intro fuel
  induction fuel with
  | zero => intro p input r h; exact Option.noConfusion h
  | succ f ih =>
    intro p input r h
    have hw : innerWF (parseCommandFuelO f p) := fun s r' h' => ih p s r' h'
    rw [parseCommandFuelO] at h
    by_cases h0 : (jsTrim input).isEmpty
    · rw [if_pos h0, Option.some_inj] at h
      subst h
      intro i hi
      exact absurd hi (List.not_mem_nil i)
    · rw [if_neg h0] at h
      rcases hp : p (preprocessCatHeredocs input) with _ | cmds
      · simp only [hp] at h
        by_cases hh : heredocTest (preprocessCatHeredocs input) = true
        · rw [if_pos hh] at h
          by_cases hcp : (jsTrim (stripHeredocSuffix
              (jsFirstLine (preprocessCatHeredocs input)))).isEmpty
          · rw [if_pos hcp, Option.some_inj] at h
            subst h
            intro i hi
            exact absurd hi (List.not_mem_nil i)
          · rw [if_neg hcp] at h
            rcases hp2 : p (jsTrim (stripHeredocSuffix
                (jsFirstLine (preprocessCatHeredocs input)))) with _ | cmds2
            · simp only [hp2, Option.some_inj] at h
              subst h
              intro i hi
              exact absurd hi (List.not_mem_nil i)
            · simp only [hp2] at h
              rcases hwk : walkNodes (parseCommandFuelO f p) cmds2 emptyWalk with _ | wr
              · simp only [hwk] at h
                exact Option.noConfusion h
              · simp only [hwk, Option.some_inj] at h
                subst h
                intro i hi
                exact walkNodes_wf _ hw cmds2 emptyWalk wr hwk
                  (fun j hj => absurd hj (List.not_mem_nil j)) i hi
        · rw [if_neg hh, Option.some_inj] at h
          subst h
          intro i hi
          exact absurd hi (List.not_mem_nil i)
      · simp only [hp] at h
        by_cases hhd : astHasHeredocL cmds = true
        · rw [if_pos hhd] at h
          by_cases hcp : (jsTrim (stripHeredocSuffix
              (jsFirstLine (preprocessCatHeredocs input)))).isEmpty
          · rw [if_pos hcp, Option.some_inj] at h
            subst h
            intro i hi
            exact absurd hi (List.not_mem_nil i)
          · rw [if_neg hcp] at h
            rcases hp2 : p (jsTrim (stripHeredocSuffix
                (jsFirstLine (preprocessCatHeredocs input)))) with _ | cmds2
            · simp only [hp2, Option.some_inj] at h
              subst h
              intro i hi
              exact absurd hi (List.not_mem_nil i)
            · simp only [hp2] at h
              rcases hwk : walkNodes (parseCommandFuelO f p) cmds2 emptyWalk with _ | wr
              · simp only [hwk] at h
                exact Option.noConfusion h
              · simp only [hwk, Option.some_inj] at h
                subst h
                intro i hi
                exact walkNodes_wf _ hw cmds2 emptyWalk wr hwk
                  (fun j hj => absurd hj (List.not_mem_nil j)) i hi
        · rw [if_neg hhd] at h
          rcases hwk : walkNodes (parseCommandFuelO f p) cmds emptyWalk with _ | wr
          · simp only [hwk] at h
            exact Option.noConfusion h
          · simp only [hwk, Option.some_inj] at h
            subst h
            intro i hi
            exact walkNodes_wf _ hw cmds emptyWalk wr hwk
              (fun j hj => absurd hj (List.not_mem_nil j)) i hi

theorem basename_no_slash (t : String) : ∀ c ∈ (basename t).toList, c ≠ '/' := by
  intro c hc
  have hc2 : c ∈ (((t.toList.reverse.dropWhile (fun c => c = '/')).takeWhile
      (fun c => c ≠ '/')).reverse : List Char) := hc
  rw [List.mem_reverse] at hc2
  simpa using List.mem_takeWhile_imp hc2

theorem wfInv_no_slash (inv : ParsedCommand) (h : wfInv inv) :
    ∀ c ∈ inv.command.toList, c ≠ '/' := by
  obtain ⟨t, hcmd, _⟩ := h
  by_cases hsl : t.toList.contains '/'
  · rw [hcmd, if_pos hsl]
    exact basename_no_slash t
  · rw [hcmd, if_neg hsl]
    intro c hc heq
    subst heq
    exact hsl (List.elem_iff.2 hc)

/-- A small concrete stand-in for the `bash-parser` library, mapping a
handful of inputs to the ASTs the real library produces on them. -/
def sampleOracle : POracle := fun s =>
  if s = "ls -la" then
    some [.command (some ⟨"ls", []⟩) [] [.word ⟨"-la", []⟩]]
  else if s = "bash -c ls" then
    some [.command (some ⟨"bash", []⟩) [] [.word ⟨"-c", []⟩, .word ⟨"ls", []⟩]]
  else if s = "ls" then
    some [.command (some ⟨"ls", []⟩) [] []]
  else if s = "cat <<EOF\nhello\nEOF" then
    some [.command (some ⟨"cat", []⟩) [] [.otherSfx "dless"]]
  else if s = "cat" then
    some [.command (some ⟨"cat", []⟩) [] []]
  else if s = "gh pr create --body \"__HEREDOC_TEXT__\"" then
    some [.command (some ⟨"gh", []⟩) []
      [.word ⟨"pr", []⟩, .word ⟨"create", []⟩, .word ⟨"--body", []⟩,
       .word ⟨"\"__HEREDOC_TEXT__\"", []⟩]]
  else if s = "FOO=$(whoami) ls" then
    some [.command (some ⟨"ls", []⟩)
      [.assignment "FOO=$(whoami)" [.cmdExp "whoami"]] []]
  else if s = "echo $(whoami)" then
    some [.command (some ⟨"echo", []⟩) [] [.word ⟨"$(whoami)", [.cmdExp "whoami"]⟩]]
  else none

/-- Claim C1: `parseCommand` is total — the embedding returns a `ParseResult`
on every code path (`none` can arise from fuel exhaustion only, which
the original unbounded recursion does not have), a `parseError=true`
result always carries an empty command list, and when the top-level
parse throws the result either is that error shape or is a best-effort
heredoc-fallback result flagged `hasSubshell=true`. -/
theorem parseCommand_parseError_empty (fuel : Nat) (p : POracle) (input : String)
    (r : ParseResult) (h : parseCommandFuelO fuel p input = some r) :
    (r.parseError = true → r.commands = []) ∧
    ((jsTrim input).isEmpty = false → p (preprocessCatHeredocs input) = none →
      (r.parseError = true ∧ r.commands = []) ∨ r.hasSubshell = true) := by
  cases fuel with
  | zero => exact Option.noConfusion h
  | succ f =>
    rw [parseCommandFuelO] at h
    by_cases h0 : (jsTrim input).isEmpty
    · rw [if_pos h0, Option.some_inj] at h
      subst h
      exact ⟨fun hpe => by simp at hpe, fun hne _ => absurd h0 (by simp [hne])⟩
    · rw [if_neg h0] at h
      rcases hp : p (preprocessCatHeredocs input) with _ | cmds
      · simp only [hp] at h
        by_cases hh : heredocTest (preprocessCatHeredocs input) = true
        · rw [if_pos hh] at h
          by_cases hcp : (jsTrim (stripHeredocSuffix
              (jsFirstLine (preprocessCatHeredocs input)))).isEmpty
          · rw [if_pos hcp, Option.some_inj] at h
            subst h
            exact ⟨fun _ => rfl, fun _ _ => Or.inr rfl⟩
          · rw [if_neg hcp] at h
            rcases hp2 : p (jsTrim (stripHeredocSuffix
                (jsFirstLine (preprocessCatHeredocs input)))) with _ | cmds2
            · simp only [hp2, Option.some_inj] at h
              subst h
              exact ⟨fun _ => rfl, fun _ _ => Or.inr rfl⟩
            · simp only [hp2] at h
              rcases hwk : walkNodes (parseCommandFuelO f p) cmds2 emptyWalk with _ | wr
              · simp only [hwk] at h
                exact Option.noConfusion h
              · simp only [hwk, Option.some_inj] at h
                subst h
                exact ⟨fun hpe => by simp at hpe, fun _ _ => Or.inr rfl⟩
        · rw [if_neg hh, Option.some_inj] at h
          subst h
          exact ⟨fun _ => rfl, fun _ _ => Or.inl ⟨rfl, rfl⟩⟩
      · simp only [hp] at h
        by_cases hhd : astHasHeredocL cmds = true
        · rw [if_pos hhd] at h
          by_cases hcp : (jsTrim (stripHeredocSuffix
              (jsFirstLine (preprocessCatHeredocs input)))).isEmpty
          · rw [if_pos hcp, Option.some_inj] at h
            subst h
            exact ⟨fun _ => rfl, fun _ hnone => Option.noConfusion hnone⟩
          · rw [if_neg hcp] at h
            rcases hp2 : p (jsTrim (stripHeredocSuffix
                (jsFirstLine (preprocessCatHeredocs input)))) with _ | cmds2
            · simp only [hp2, Option.some_inj] at h
              subst h
              exact ⟨fun _ => rfl, fun _ hnone => Option.noConfusion hnone⟩
            · simp only [hp2] at h
              rcases hwk : walkNodes (parseCommandFuelO f p) cmds2 emptyWalk with _ | wr
              · simp only [hwk] at h
                exact Option.noConfusion h
              · simp only [hwk, Option.some_inj] at h
                subst h
                exact ⟨fun hpe => by simp at hpe, fun _ hnone => Option.noConfusion hnone⟩
        · rw [if_neg hhd] at h
          rcases hwk : walkNodes (parseCommandFuelO f p) cmds emptyWalk with _ | wr
          · simp only [hwk] at h
            exact Option.noConfusion h
          · simp only [hwk, Option.some_inj] at h
            subst h
            exact ⟨fun hpe => by simp at hpe, fun _ hnone => Option.noConfusion hnone⟩

/-- Witness for C1 at a concrete unparseable input. -/
theorem parseCommand_parseError_empty_witness :
    parseCommandFuelO 1 (fun _ => none) "(((" = some ⟨[], false, [], true⟩ ∧
    ((⟨[], false, [], true⟩ : ParseResult).parseError = true →
      (⟨[], false, [], true⟩ : ParseResult).commands = []) ∧
    ((jsTrim "(((").isEmpty = false →
      (fun _ => none : POracle) (preprocessCatHeredocs "(((") = none →
      ((⟨[], false, [], true⟩ : ParseResult).parseError = true ∧
        (⟨[], false, [], true⟩ : ParseResult).commands = []) ∨
      (⟨[], false, [], true⟩ : ParseResult).hasSubshell = true) :=
  ⟨by decide, parseCommand_parseError_empty 1 (fun _ => none) "((("
    ⟨[], false, [], true⟩ (by decide)⟩

/-- Claim C8: every invocation the parser produces has a `command` free of
path separators — the basename of the original executable word, which
itself is kept inside `raw`. -/
theorem command_basename_no_slash (fuel : Nat) (p : POracle) (input : String)
    (r : ParseResult) (inv : ParsedCommand)
    (h : parseCommandFuelO fuel p input = some r) (hm : inv ∈ r.commands) :
    (∀ c ∈ inv.command.toList, c ≠ '/') ∧
    ∃ t, inv.command = (if t.toList.contains '/' then basename t else t) ∧
      inv.raw = String.intercalate " " (inv.envPrefixes ++ [t] ++ inv.args) := by
  have hwf := parseCommand_wf fuel p input r h inv hm
  exact ⟨wfInv_no_slash inv hwf, hwf⟩

/-- Witness for C8 on a path-qualified executable. -/
theorem command_basename_no_slash_witness :
    parseCommandFuelO 1
      (fun s => if s = "/usr/bin/ls -la" then
        some [.command (some ⟨"/usr/bin/ls", []⟩) [] [.word ⟨"-la", []⟩]] else none)
      "/usr/bin/ls -la" =
      some ⟨[⟨"ls", ["-la"], [], "/usr/bin/ls -la"⟩], false, [], false⟩ ∧
    ((∀ c ∈ ("ls" : String).toList, c ≠ '/') ∧
     ∃ t, ("ls" : String) = (if t.toList.contains '/' then basename t else t) ∧
       ("/usr/bin/ls -la" : String) =
         String.intercalate " " (([] : List String) ++ [t] ++ ["-la"])) :=
  ⟨by decide,
   command_basename_no_slash 1
     (fun s => if s = "/usr/bin/ls -la" then
       some [.command (some ⟨"/usr/bin/ls", []⟩) [] [.word ⟨"-la", []⟩]] else none)
     "/usr/bin/ls -la" ⟨[⟨"ls", ["-la"], [], "/usr/bin/ls -la"⟩], false, [], false⟩
     ⟨"ls", ["-la"], [], "/usr/bin/ls -la"⟩ (by decide) (by decide)⟩

/-- Claim C9: for every invocation the parser produces, space-joining the env
prefixes, the original command word (path included), and the args
reconstructs `raw` exactly (the word is pinned down as the one whose
basename-normalisation is `command`). -/
theorem raw_round_trip (fuel : Nat) (p : POracle) (input : String)
    (r : ParseResult) (inv : ParsedCommand)
    (h : parseCommandFuelO fuel p input = some r) (hm : inv ∈ r.commands) :
    ∃ t, inv.raw = String.intercalate " " (inv.envPrefixes ++ [t] ++ inv.args) ∧
      inv.command = (if t.toList.contains '/' then basename t else t) := by
  obtain ⟨t, h1, h2⟩ := parseCommand_wf fuel p input r h inv hm
  exact ⟨t, h2, h1⟩

/-- Witness for C9 with env prefixes and args present. -/
theorem raw_round_trip_witness :
    parseCommandFuelO 1
      (fun s => if s = "FOO=1 ls -la" then
        some [.command (some ⟨"ls", []⟩) [.assignment "FOO=1" []] [.word ⟨"-la", []⟩]]
        else none)
      "FOO=1 ls -la" =
      some ⟨[⟨"ls", ["-la"], ["FOO=1"], "FOO=1 ls -la"⟩], false, [], false⟩ ∧
    ∃ t, ("FOO=1 ls -la" : String) =
        String.intercalate " " (["FOO=1"] ++ [t] ++ ["-la"]) ∧
      ("ls" : String) = (if t.toList.contains '/' then basename t else t) :=
  ⟨by decide,
   raw_round_trip 1
     (fun s => if s = "FOO=1 ls -la" then
       some [.command (some ⟨"ls", []⟩) [.assignment "FOO=1" []] [.word ⟨"-la", []⟩]]
       else none)
     "FOO=1 ls -la" ⟨[⟨"ls", ["-la"], ["FOO=1"], "FOO=1 ls -la"⟩], false, [], false⟩
     ⟨"ls", ["-la"], ["FOO=1"], "FOO=1 ls -la"⟩ (by decide) (by decide)⟩

/-- Claim C3: when a parsed invocation is `sh`/`bash`/`zsh` with first arg
`-c` and at least two args, the parser re-enters itself on `args[1]`;
an inner success replaces the wrapper by the child's invocations and
propagates the child's `hasSubshell`/`subshellCommands`, an inner parse
error keeps the wrapper as the single invocation. -/
theorem sh_dash_c_unwrap (f : Nat) (p : POracle) (input : String)
    (w : Word) (ps : List PfxItem) (ss : List SfxItem)
    (parsed : ParsedCommand) (ir : ParseResult)
    (h0 : (jsTrim input).isEmpty = false)
    (h1 : p (preprocessCatHeredocs input) = some [AstNode.command (some w) ps ss])
    (h2 : astHasHeredocL [AstNode.command (some w) ps ss] = false)
    (h3 : convertCommand (some w) ps ss = some parsed)
    (h4 : collectCommandExpansions (some w) ss = [])
    (h5 : parsed.command = "sh" ∨ parsed.command = "bash" ∨ parsed.command = "zsh")
    (h6 : parsed.args.length ≥ 2)
    (h7 : parsed.args.headD "" = "-c")
    (h8 : parseCommandFuelO f p (parsed.args.getD 1 "") = some ir) :
    parseCommandFuelO (f + 1) p input =
      (if ir.parseError then some ⟨[parsed], false, [], false⟩
       else some ⟨ir.commands, ir.hasSubshell, ir.subshellCommands, false⟩) := by
  rw [parseCommandFuelO]
  rw [if_neg (by simp [h0])]
  simp only [h1]
  rw [if_neg (by simp [h2])]
  simp only [walkNodes, walkNode, h4, h3, emptyWalk]
  have hcond : ((decide (parsed.command = "sh") || decide (parsed.command = "bash") ||
      decide (parsed.command = "zsh")) && decide (parsed.args.length ≥ 2) &&
      decide (parsed.args.headD "" = "-c")) = true := by
    rw [List.headD_eq_head?_getD] at h7
    rcases h5 with h5 | h5 | h5 <;> simp [h5, h6, h7]
  rw [if_pos hcond]
  simp only [h8]
  by_cases hpe : ir.parseError = true
  · rw [if_pos hpe, if_pos hpe]
    simp [walkNodes]
  · rw [if_neg hpe, if_neg hpe]
    simp [walkNodes]

/-- Witness for C3: `bash -c ls` unwraps to the parse of `ls`. -/
theorem sh_dash_c_unwrap_witness :
    parseCommandFuelO 1 sampleOracle "ls" = some ⟨[⟨"ls", [], [], "ls"⟩], false, [], false⟩ ∧
    parseCommandFuelO 2 sampleOracle "bash -c ls" =
      (if (⟨[⟨"ls", [], [], "ls"⟩], false, [], false⟩ : ParseResult).parseError then
        some ⟨[⟨"bash", ["-c", "ls"], [], "bash -c ls"⟩], false, [], false⟩
       else some ⟨[⟨"ls", [], [], "ls"⟩], false, [], false⟩) :=
  ⟨by decide,
   sh_dash_c_unwrap 1 sampleOracle "bash -c ls" ⟨"bash", []⟩ []
     [.word ⟨"-c", []⟩, .word ⟨"ls", []⟩]
     ⟨"bash", ["-c", "ls"], [], "bash -c ls"⟩
     ⟨[⟨"ls", [], [], "ls"⟩], false, [], false⟩
     (by decide) rfl (by decide) (by decide) (by decide)
     (Or.inr (Or.inl rfl)) (by decide) (by decide) (by decide)⟩

/-- Claim C5: a successful top-level parse containing a heredoc redirect is
answered by stripping the heredoc suffix from the first line of the
(preprocessed) input, re-parsing that shorter line, and returning its
walked invocations flagged `hasSubshell=true`. -/
theorem heredoc_first_line_fallback (f : Nat) (p : POracle) (input : String)
    (cmds cmds2 : List AstNode) (wr : WalkResult)
    (h0 : (jsTrim input).isEmpty = false)
    (h1 : p (preprocessCatHeredocs input) = some cmds)
    (h2 : astHasHeredocL cmds = true)
    (h3 : (jsTrim (stripHeredocSuffix
      (jsFirstLine (preprocessCatHeredocs input)))).isEmpty = false)
    (h4 : p (jsTrim (stripHeredocSuffix
      (jsFirstLine (preprocessCatHeredocs input)))) = some cmds2)
    (h5 : walkNodes (parseCommandFuelO f p) cmds2 emptyWalk = some wr) :
    parseCommandFuelO (f + 1) p input =
      some ⟨wr.commands, true, wr.subshellCommands, false⟩ := by
  rw [parseCommandFuelO]
  rw [if_neg (by simp [h0])]
  simp only [h1]
  rw [if_pos h2]
  rw [if_neg (by simp [h3])]
  simp only [h4, h5]

/-- Witness for C5 on `cat <<EOF ... EOF`. -/
theorem heredoc_first_line_fallback_witness :
    (jsTrim "cat <<EOF\nhello\nEOF").isEmpty = false ∧
    parseCommandFuelO 1 sampleOracle "cat <<EOF\nhello\nEOF" =
      some ⟨[⟨"cat", [], [], "cat"⟩], true, [], false⟩ :=
  ⟨by decide,
   heredoc_first_line_fallback 0 sampleOracle "cat <<EOF\nhello\nEOF"
     [.command (some ⟨"cat", []⟩) [] [.otherSfx "dless"]]
     [.command (some ⟨"cat", []⟩) [] []]
     ⟨[⟨"cat", [], [], "cat"⟩], false, []⟩
     (by decide) rfl (by decide) (by decide) rfl (by decide)⟩

/-- Claim C6 counterexample: on a throwing parse with no heredoc marker the
code returns `parseError=true` with `hasSubshell=false`, not `true` as
claimed. -/
theorem parse_failure_no_heredoc_hasSubshell_false :
    parseCommandFuelO 1 (fun _ => none) "(((" = some ⟨[], false, [], true⟩ ∧
    heredocTest (preprocessCatHeredocs "(((") = false ∧
    (⟨[], false, [], true⟩ : ParseResult).hasSubshell = false := by
  refine ⟨by decide, by decide, rfl⟩

/-- Claim C6 amended: when the top-level parse throws, an input without a
heredoc marker yields `parseError=true` with `hasSubshell=false`; only
the failing heredoc fallback (blank stripped first line, or a second
parse failure on it) yields `parseError=true` with `hasSubshell=true`. -/
theorem parse_failure_fallback_results (f : Nat) (p : POracle) (input : String)
    (h0 : (jsTrim input).isEmpty = false)
    (h1 : p (preprocessCatHeredocs input) = none) :
    (heredocTest (preprocessCatHeredocs input) = false →
      parseCommandFuelO (f + 1) p input = some ⟨[], false, [], true⟩) ∧
    (heredocTest (preprocessCatHeredocs input) = true →
      (jsTrim (stripHeredocSuffix
        (jsFirstLine (preprocessCatHeredocs input)))).isEmpty = true →
      parseCommandFuelO (f + 1) p input = some ⟨[], true, [], true⟩) ∧
    (heredocTest (preprocessCatHeredocs input) = true →
      (jsTrim (stripHeredocSuffix
        (jsFirstLine (preprocessCatHeredocs input)))).isEmpty = false →
      p (jsTrim (stripHeredocSuffix (jsFirstLine (preprocessCatHeredocs input)))) = none →
      parseCommandFuelO (f + 1) p input = some ⟨[], true, [], true⟩) := by
  refine ⟨?_, ?_, ?_⟩
  · intro hh
    rw [parseCommandFuelO, if_neg (by simp [h0])]
    simp only [h1]
    rw [if_neg (by simp [hh])]
  · intro hh hcp
    rw [parseCommandFuelO, if_neg (by simp [h0])]
    simp only [h1]
    rw [if_pos hh, if_pos hcp]
  · intro hh hcp hp2
    rw [parseCommandFuelO, if_neg (by simp [h0])]
    simp only [h1]
    rw [if_pos hh, if_neg (by simp [hcp])]
    simp only [hp2]

/-- Witness for the amended C6 at concrete inputs exercising the
no-heredoc branch and the failing-fallback branch. -/
theorem parse_failure_fallback_results_witness :
    ((jsTrim "(((").isEmpty = false ∧
      (fun _ => none : POracle) (preprocessCatHeredocs "(((") = none ∧
      parseCommandFuelO 1 (fun _ => none) "(((" = some ⟨[], false, [], true⟩) ∧
    ((jsTrim "<<EOF").isEmpty = false ∧
      parseCommandFuelO 1 (fun _ => none) "<<EOF" = some ⟨[], true, [], true⟩) :=
  ⟨⟨by decide, rfl,
    (parse_failure_fallback_results 0 (fun _ => none) "((("
      (by decide) rfl).1 (by decide)⟩,
   ⟨by decide,
    (parse_failure_fallback_results 0 (fun _ => none) "<<EOF"
      (by decide) rfl).2.1 (by decide) (by decide)⟩⟩

/-- Claim C7: the `$(cat <<MARKER ... MARKER)` idiom is rewritten to the
placeholder token before parsing — also when it occurs several times —
so such a substitution contributes no subshell taint and the outer
command parses cleanly. -/
theorem cat_heredoc_preprocessing :
    preprocessCatHeredocs "gh pr create --body \"$(cat <<EOF\nhello\nEOF\n)\"" =
      "gh pr create --body \"__HEREDOC_TEXT__\"" ∧
    preprocessCatHeredocs "a $(cat <<A\nx\nA) b $(cat <<B\ny\nB)" =
      "a __HEREDOC_TEXT__ b __HEREDOC_TEXT__" ∧
    parseCommandFuelO 1 sampleOracle
      "gh pr create --body \"$(cat <<EOF\nhello\nEOF\n)\"" =
      some ⟨[⟨"gh", ["pr", "create", "--body", "\"__HEREDOC_TEXT__\""], [],
             "gh pr create --body \"__HEREDOC_TEXT__\""⟩], false, [], false⟩ := by
  refine ⟨by decide, by decide, by decide⟩

/-- Claim C2 counterexample: under the built-in defaults, `rm -rf x` is
*asked about*, not denied, and the default configuration contains no
global deny pattern at all; moreover plain `rm a` is allowed rather
than asked about. -/
theorem rm_recursive_force_asks_not_denies :
    (evaluateInvocation defaultMerged "rm -rf x"
      ⟨"rm", ["-rf", "x"], [], "rm -rf x"⟩).1 = Decision.ask ∧
    Decision.ask ≠ Decision.deny ∧
    defaultMerged.globalDeny = [] ∧
    (evaluateInvocation defaultMerged "rm a" ⟨"rm", ["a"], [], "rm a"⟩).1 =
      Decision.allow := by
  refine ⟨by decide, by decide, rfl, by decide⟩

/-- Claim C2 amended: the default config has no global deny patterns; the
`rm` rule answers `ask` (reason `Recursive force delete (rm -rf)`) on
combined recursive-force flags, `ask` on a plain recursive flag,
`allow` for at most three non-recursive arguments, and `ask` otherwise. -/
theorem rm_rule_decisions :
    defaultMerged.globalDeny = [] ∧
    evaluateInvocation defaultMerged "rm -rf x" ⟨"rm", ["-rf", "x"], [], "rm -rf x"⟩ =
      (Decision.ask, some "Recursive force delete (rm -rf)") ∧
    evaluateInvocation defaultMerged "rm -fr x" ⟨"rm", ["-fr", "x"], [], "rm -fr x"⟩ =
      (Decision.ask, some "Recursive force delete (rm -rf)") ∧
    evaluateInvocation defaultMerged "rm -r x" ⟨"rm", ["-r", "x"], [], "rm -r x"⟩ =
      (Decision.ask, some "Recursive delete") ∧
    evaluateInvocation defaultMerged "rm a" ⟨"rm", ["a"], [], "rm a"⟩ =
      (Decision.allow, none) ∧
    evaluateInvocation defaultMerged "rm a b c d"
      ⟨"rm", ["a", "b", "c", "d"], [], "rm a b c d"⟩ = (Decision.ask, none) := by
  refine ⟨rfl, by decide, by decide, by decide, by decide, by decide⟩

/-- Claim C4 counterexample: `FOO=$(whoami) ls` parses successfully and its
assignment word carries the command substitution `whoami`, yet the
result is untainted and collects nothing — the walker never inspects
expansion lists of `AssignmentWord` prefixes. -/
theorem prefix_assignment_substitution_missed :
    parseCommandFuelO 1 sampleOracle "FOO=$(whoami) ls" =
      some ⟨[⟨"ls", [], ["FOO=$(whoami)"], "FOO=$(whoami) ls"⟩], false, [], false⟩ ∧
    allCmdExpansionsList [AstNode.command (some ⟨"ls", []⟩)
      [.assignment "FOO=$(whoami)" [.cmdExp "whoami"]] []] = ["whoami"] ∧
    sampleOracle (preprocessCatHeredocs "FOO=$(whoami) ls") =
      some [AstNode.command (some ⟨"ls", []⟩)
        [.assignment "FOO=$(whoami)" [.cmdExp "whoami"]] []] := by
  refine ⟨by decide, by decide, rfl⟩

/-- Claim C4 amended: on the ordinary (non-heredoc) success path, every
command-substitution expansion carried by the *name or suffix words* of
a Command node the walker visits ends up in `subshellCommands`, and any
such expansion sets `hasSubshell`. -/
theorem suffix_expansions_collected (fuel : Nat) (p : POracle) (input : String)
    (cmds : List AstNode) (r : ParseResult)
    (h0 : (jsTrim input).isEmpty = false)
    (h1 : p (preprocessCatHeredocs input) = some cmds)
    (h2 : astHasHeredocL cmds = false)
    (h : parseCommandFuelO (fuel + 1) p input = some r) :
    (∀ c ∈ reachableExpsList cmds, c ∈ r.subshellCommands) ∧
    (reachableExpsList cmds ≠ [] → r.hasSubshell = true) := by
  rw [parseCommandFuelO, if_neg (by simp [h0])] at h
  simp only [h1] at h
  rw [if_neg (by simp [h2])] at h
  rcases hwk : walkNodes (parseCommandFuelO fuel p) cmds emptyWalk with _ | wr
  · rw [hwk] at h
    exact Option.noConfusion h
  · rw [hwk, Option.some_inj] at h
    subst h
    obtain ⟨_, _, hx, hn⟩ := walkNodes_grows (parseCommandFuelO fuel p) cmds emptyWalk wr hwk
    exact ⟨hx, hn⟩

/-- Witness for the amended C4 on `echo $(whoami)`. -/
theorem suffix_expansions_collected_witness :
    parseCommandFuelO 1 sampleOracle "echo $(whoami)" =
      some ⟨[⟨"echo", ["$(whoami)"], [], "echo $(whoami)"⟩], true, ["whoami"], false⟩ ∧
    ((∀ c ∈ reachableExpsList [AstNode.command (some ⟨"echo", []⟩) []
        [.word ⟨"$(whoami)", [.cmdExp "whoami"]⟩]],
      c ∈ (⟨[⟨"echo", ["$(whoami)"], [], "echo $(whoami)"⟩], true, ["whoami"], false⟩ :
        ParseResult).subshellCommands) ∧
     (reachableExpsList [AstNode.command (some ⟨"echo", []⟩) []
        [.word ⟨"$(whoami)", [.cmdExp "whoami"]⟩]] ≠ [] →
      (⟨[⟨"echo", ["$(whoami)"], [], "echo $(whoami)"⟩], true, ["whoami"], false⟩ :
        ParseResult).hasSubshell = true)) :=
  ⟨by decide,
   suffix_expansions_collected 0 sampleOracle "echo $(whoami)"
     [AstNode.command (some ⟨"echo", []⟩) [] [.word ⟨"$(whoami)", [.cmdExp "whoami"]⟩]]
     ⟨[⟨"echo", ["$(whoami)"], [], "echo $(whoami)"⟩], true, ["whoami"], false⟩
     (by decide) rfl (by decide) (by decide)⟩

theorem jsTrimList_length_le (cs : List Char) : (jsTrimList cs).length ≤ cs.length := by
  simp only [jsTrimList, List.length_reverse]
  calc ((cs.dropWhile isRegexSpace).reverse.dropWhile isRegexSpace).length
      ≤ (cs.dropWhile isRegexSpace).reverse.length :=
        (List.dropWhile_sublist _).length_le
    _ = (cs.dropWhile isRegexSpace).length := List.length_reverse _
    _ ≤ cs.length := (List.dropWhile_sublist _).length_le

theorem stripHeredocFrom_length_le (cs : List Char) :
    (stripHeredocFrom cs).length ≤ cs.length := by
  induction cs with
  | nil => simp [stripHeredocFrom]
  | cons c rest ih =>
    rw [stripHeredocFrom]
    split
    · simp
    · simpa using Nat.succ_le_succ ih

theorem cmdPart_length_le (s : String) :
    (jsTrim (stripHeredocSuffix (jsFirstLine s))).length ≤ s.length := by
  calc (jsTrim (stripHeredocSuffix (jsFirstLine s))).length
      ≤ (stripHeredocSuffix (jsFirstLine s)).length :=
        jsTrimList_length_le (stripHeredocFrom (s.data.takeWhile (fun c => c ≠ '\n')))
    _ ≤ (jsFirstLine s).length :=
        stripHeredocFrom_length_le (s.data.takeWhile (fun c => c ≠ '\n'))
    _ ≤ s.length := (List.takeWhile_sublist _).length_le

theorem getD_one_mem {l : List String} (h : 2 ≤ l.length) : l.getD 1 "" ∈ l := by
  rcases l with _ | ⟨a, _ | ⟨b, t⟩⟩
  · simp at h
  · simp at h
  · simp [List.getD]

theorem args_mem_wordTexts (w : Word) (ps : List PfxItem) (ss : List SfxItem)
    (parsed : ParsedCommand) (hc : convertCommand (some w) ps ss = some parsed)
    (a : String) (ha : a ∈ parsed.args) :
    a ∈ nodeWordTexts (AstNode.command (some w) ps ss) := by
  simp only [convertCommand, Option.some_inj] at hc
  subst hc
  simp only [nodeWordTexts]
  exact List.mem_append_right _ ha

mutual

theorem walkNode_isSome (inner : String → Option ParseResult) (n : AstNode)
    (hin : ∀ t ∈ nodeWordTexts n, (inner t).isSome = true) (acc : WalkResult) :
    (walkNode inner n acc).isSome = true := by
  rcases hwn : walkNode inner n acc with _ | wr
  · exfalso
    cases n with
    | command nm ps ss =>
      simp only [walkNode] at hwn
      rcases hc : convertCommand nm ps ss with _ | parsed
      · simp only [hc] at hwn
        exact Option.noConfusion hwn
      · simp only [hc] at hwn
        split at hwn
        · rcases hi : inner (parsed.args.getD 1 "") with _ | ir
          · rename_i hcond
            have h2 : 2 ≤ parsed.args.length := by
              simp only [Bool.and_eq_true, decide_eq_true_eq] at hcond
              exact hcond.1.2
            cases nm with
            | none => exact Option.noConfusion hc
            | some w =>
              have hsome := hin (parsed.args.getD 1 "")
                (args_mem_wordTexts w ps ss parsed hc _ (getD_one_mem h2))
              rw [hi] at hsome
              exact absurd hsome (by simp)
          · simp only [hi] at hwn
            split at hwn <;> exact Option.noConfusion hwn
        · exact Option.noConfusion hwn
    | pipeline cs =>
      simp only [walkNode] at hwn
      have hws := walkNodes_isSome inner cs (by simpa only [nodeWordTexts] using hin) acc
      rw [hwn] at hws
      exact absurd hws (by simp)
    | logical l r2 =>
      simp only [walkNode] at hwn
      rcases hl : walkNode inner l acc with _ | acc2
      · have hws := walkNode_isSome inner l
          (fun t ht => hin t (by simp only [nodeWordTexts]; exact List.mem_append_left _ ht)) acc
        rw [hl] at hws
        exact absurd hws (by simp)
      · simp only [hl] at hwn
        have hws := walkNode_isSome inner r2
          (fun t ht => hin t (by simp only [nodeWordTexts]; exact List.mem_append_right _ ht)) acc2
        rw [hwn] at hws
        exact absurd hws (by simp)
    | subshell cs =>
      simp only [walkNode] at hwn
      have hws := walkNodes_isSome inner cs (by simpa only [nodeWordTexts] using hin)
        ⟨acc.commands, true, acc.subshellCommands⟩
      rw [hwn] at hws
      exact absurd hws (by simp)
    | ctrl k cs =>
      simp only [walkNode] at hwn
      exact Option.noConfusion hwn
    | other ty cs =>
      simp only [walkNode] at hwn
      exact Option.noConfusion hwn
  · rfl

theorem walkNodes_isSome (inner : String → Option ParseResult) (ns : List AstNode)
    (hin : ∀ t ∈ nodeWordTextsList ns, (inner t).isSome = true) (acc : WalkResult) :
    (walkNodes inner ns acc).isSome = true := by
  rcases hwn : walkNodes inner ns acc with _ | wr
  · exfalso
    cases ns with
    | nil =>
      simp only [walkNodes] at hwn
      exact Option.noConfusion hwn
    | cons n rest =>
      simp only [walkNodes] at hwn
      rcases hn : walkNode inner n acc with _ | acc2
      · have hws := walkNode_isSome inner n
          (fun t ht => hin t (List.mem_append_left _ ht)) acc
        rw [hn] at hws
        exact absurd hws (by simp)
      · simp only [hn] at hwn
        have hws := walkNodes_isSome inner rest
          (fun t ht => hin t (List.mem_append_right _ ht)) acc2
        rw [hwn] at hws
        exact absurd hws (by simp)
  · rfl

end

/-- On preprocessor-fixed inputs of bounded length, a word-shrinking
oracle with preprocessor-inert words lets the parser complete within
fuel one more than the length bound. -/
theorem parse_isSome_of_inert (p : POracle) (hs : wordShrinking p) (hii : wordsInert p) :
    ∀ (n : Nat) (s : String), preprocessCatHeredocs s = s → s.length ≤ n →
      (parseCommandFuelO (n + 1) p s).isSome = true := by
  intro n
  induction n with
  | zero =>
    intro s _ hlen
    have hd : s.data = [] := List.length_eq_zero.mp (Nat.le_zero.mp hlen)
    have hmk : String.mk [] = "" := rfl
    have h1 : jsTrim s = "" := by
      simp [jsTrim, jsTrimList, hd, hmk]
    rw [parseCommandFuelO, if_pos (by rw [h1]; rfl)]
    rfl
  | succ k ih =>
    intro s hpre hlen
    have hinner : ∀ cs2 (u : String), u.length ≤ s.length → p u = some cs2 →
        (walkNodes (parseCommandFuelO (k + 1) p) cs2 emptyWalk).isSome = true := by
      intro cs2 u hu hpu
      refine walkNodes_isSome _ cs2 (fun t ht => ?_) emptyWalk
      have hlt : t.length < u.length := hs u cs2 hpu t ht
      have hptt : preprocessCatHeredocs t = t := hii u cs2 hpu t ht
      exact ih t hptt (Nat.le_of_lt_succ (Nat.lt_of_lt_of_le hlt (le_trans hu hlen)))
    rcases hres : parseCommandFuelO (k + 1 + 1) p s with _ | r
    · exfalso
      rw [parseCommandFuelO] at hres
      by_cases h0 : (jsTrim s).isEmpty
      · rw [if_pos h0] at hres
        exact Option.noConfusion hres
      · rw [if_neg h0] at hres
        simp only [hpre] at hres
        rcases hp : p s with _ | cmds
        · simp only [hp] at hres
          by_cases hh : heredocTest s = true
          · rw [if_pos hh] at hres
            by_cases hcp : (jsTrim (stripHeredocSuffix (jsFirstLine s))).isEmpty
            · rw [if_pos hcp] at hres
              exact Option.noConfusion hres
            · rw [if_neg hcp] at hres
              rcases hp2 : p (jsTrim (stripHeredocSuffix (jsFirstLine s))) with _ | cmds2
              · simp only [hp2] at hres
                exact Option.noConfusion hres
              · simp only [hp2] at hres
                have hwk := hinner cmds2 _ (cmdPart_length_le s) hp2
                rcases hw : walkNodes (parseCommandFuelO (k + 1) p) cmds2 emptyWalk with _ | wr
                · rw [hw] at hwk
                  exact absurd hwk (by simp)
                · simp only [hw] at hres
                  exact Option.noConfusion hres
          · rw [if_neg hh] at hres
            exact Option.noConfusion hres
        · simp only [hp] at hres
          by_cases hhd : astHasHeredocL cmds = true
          · rw [if_pos hhd] at hres
            by_cases hcp : (jsTrim (stripHeredocSuffix (jsFirstLine s))).isEmpty
            · rw [if_pos hcp] at hres
              exact Option.noConfusion hres
            · rw [if_neg hcp] at hres
              rcases hp2 : p (jsTrim (stripHeredocSuffix (jsFirstLine s))) with _ | cmds2
              · simp only [hp2] at hres
                exact Option.noConfusion hres
              · simp only [hp2] at hres
                have hwk := hinner cmds2 _ (cmdPart_length_le s) hp2
                rcases hw : walkNodes (parseCommandFuelO (k + 1) p) cmds2 emptyWalk with _ | wr
                · rw [hw] at hwk
                  exact absurd hwk (by simp)
                · simp only [hw] at hres
                  exact Option.noConfusion hres
          · rw [if_neg hhd] at hres
            have hwk := hinner cmds s (le_refl _) hp
            rcases hw : walkNodes (parseCommandFuelO (k + 1) p) cmds emptyWalk with _ | wr
            · rw [hw] at hwk
              exact absurd hwk (by simp)
            · simp only [hw] at hres
              exact Option.noConfusion hres
    · rfl

/-- Claim C10 amended: the only self-recursion of `parseCommand` is the
`sh`/`bash`/`zsh` `-c` unwrap on `args[1]`.  If the grammar library
only produces words strictly shorter than the string it parses *and*
those words are unchanged by the cat-heredoc preprocessor, the
recursion depth is bounded and `parseCommand` completes within fuel
`(preprocessCatHeredocs input).length + 2` on every input.  Word
shrinking alone is not enough, because preprocessing can lengthen the
string between recursion levels (see the divergence counterexample). -/
theorem parseCommand_terminates_shrinking_inert (p : POracle)
    (hs : wordShrinking p) (hii : wordsInert p) (input : String) :
    (parseCommandFuelO ((preprocessCatHeredocs input).length + 2) p input).isSome = true := by
  have hinner : ∀ cs2 (u : String), u.length ≤ (preprocessCatHeredocs input).length →
      p u = some cs2 →
      (walkNodes (parseCommandFuelO ((preprocessCatHeredocs input).length + 1) p)
        cs2 emptyWalk).isSome = true := by
    intro cs2 u hu hpu
    refine walkNodes_isSome _ cs2 (fun t ht => ?_) emptyWalk
    have hlt : t.length < u.length := hs u cs2 hpu t ht
    have hptt : preprocessCatHeredocs t = t := hii u cs2 hpu t ht
    exact parse_isSome_of_inert p hs hii (preprocessCatHeredocs input).length t hptt
      (le_trans (Nat.le_of_lt_succ (Nat.lt_succ_of_lt hlt)) (by omega))
  rcases hres : parseCommandFuelO ((preprocessCatHeredocs input).length + 2) p input
    with _ | r
  · exfalso
    rw [show (preprocessCatHeredocs input).length + 2 =
      ((preprocessCatHeredocs input).length + 1) + 1 from rfl] at hres
    rw [parseCommandFuelO] at hres
    by_cases h0 : (jsTrim input).isEmpty
    · rw [if_pos h0] at hres
      exact Option.noConfusion hres
    · rw [if_neg h0] at hres
      simp only [] at hres
      rcases hp : p (preprocessCatHeredocs input) with _ | cmds
      · simp only [hp] at hres
        by_cases hh : heredocTest (preprocessCatHeredocs input) = true
        · rw [if_pos hh] at hres
          by_cases hcp : (jsTrim (stripHeredocSuffix
              (jsFirstLine (preprocessCatHeredocs input)))).isEmpty
          · rw [if_pos hcp] at hres
            exact Option.noConfusion hres
          · rw [if_neg hcp] at hres
            rcases hp2 : p (jsTrim (stripHeredocSuffix
                (jsFirstLine (preprocessCatHeredocs input)))) with _ | cmds2
            · simp only [hp2] at hres
              exact Option.noConfusion hres
            · simp only [hp2] at hres
              have hwk := hinner cmds2 _ (cmdPart_length_le _) hp2
              rcases hw : walkNodes (parseCommandFuelO
                  ((preprocessCatHeredocs input).length + 1) p) cmds2 emptyWalk with _ | wr
              · rw [hw] at hwk
                exact absurd hwk (by simp)
              · simp only [hw] at hres
                exact Option.noConfusion hres
        · rw [if_neg hh] at hres
          exact Option.noConfusion hres
      · simp only [hp] at hres
        by_cases hhd : astHasHeredocL cmds = true
        · rw [if_pos hhd] at hres
          by_cases hcp : (jsTrim (stripHeredocSuffix
              (jsFirstLine (preprocessCatHeredocs input)))).isEmpty
          · rw [if_pos hcp] at hres
            exact Option.noConfusion hres
          · rw [if_neg hcp] at hres
            rcases hp2 : p (jsTrim (stripHeredocSuffix
                (jsFirstLine (preprocessCatHeredocs input)))) with _ | cmds2
            · simp only [hp2] at hres
              exact Option.noConfusion hres
            · simp only [hp2] at hres
              have hwk := hinner cmds2 _ (cmdPart_length_le _) hp2
              rcases hw : walkNodes (parseCommandFuelO
                  ((preprocessCatHeredocs input).length + 1) p) cmds2 emptyWalk with _ | wr
              · rw [hw] at hwk
                exact absurd hwk (by simp)
              · simp only [hw] at hres
                exact Option.noConfusion hres
        · rw [if_neg hhd] at hres
          have hwk := hinner cmds _ (le_refl _) hp
          rcases hw : walkNodes (parseCommandFuelO
              ((preprocessCatHeredocs input).length + 1) p) cmds emptyWalk with _ | wr
          · rw [hw] at hwk
            exact absurd hwk (by simp)
          · simp only [hw] at hres
            exact Option.noConfusion hres
  · rfl

/-- Witness for the amended C10 (the empty oracle satisfies both
hypotheses vacuously). -/
theorem parseCommand_terminates_shrinking_inert_witness :
    wordShrinking (fun _ => none) ∧ wordsInert (fun _ => none) ∧
    (parseCommandFuelO ((preprocessCatHeredocs "ls").length + 2)
      (fun _ => none) "ls").isSome = true :=
  ⟨fun _ _ h => Option.noConfusion h,
   fun _ _ h => Option.noConfusion h,
   parseCommand_terminates_shrinking_inert (fun _ => none)
     (fun _ _ h => Option.noConfusion h) (fun _ _ h => Option.noConfusion h) "ls"⟩

/-- The cyclic input of the divergence counterexample. -/
def t0str : String := "$(cat <<A\nx\nA)"

/-- The placeholder string. -/
def phStr : String := "__HEREDOC_TEXT__"

/-- The AST the hostile oracle returns for the preprocessed cyclic
input: `bash -c '$(cat <<A ... A)'`. -/
def badAst : List AstNode :=
  [.command (some ⟨"bash", []⟩) [] [.word ⟨"-c", []⟩, .word ⟨t0str, []⟩]]

/-- A word-shrinking oracle on which the unwrap recursion cycles:
every word of `badAst` is shorter than the 16-character placeholder. -/
def badOracle : POracle := fun s => if s = phStr then some badAst else none

theorem badOracle_shrinking : wordShrinking badOracle := by
  intro s cmds h t ht
  unfold badOracle at h
  split at h
  · rename_i hse
    subst hse
    rw [Option.some_inj] at h
    subst h
    have ht2 : t ∈ (["bash", "-c", t0str] : List String) := by
      simpa [badAst, nodeWordTextsList, nodeWordTexts] using ht
    fin_cases ht2 <;> decide
  · exact Option.noConfusion h

theorem walkNodes_badAst_none (inner : String → Option ParseResult)
    (h : inner t0str = none) : walkNodes inner badAst emptyWalk = none := by
  have hg : badAst = [.command (some ⟨"bash", []⟩) []
      [.word ⟨"-c", []⟩, .word ⟨t0str, []⟩]] := rfl
  rw [hg]
  simp only [walkNodes, walkNode]
  rw [show (convertCommand (some ⟨"bash", []⟩) []
    [.word ⟨"-c", []⟩, .word ⟨t0str, []⟩]) =
    some ⟨"bash", ["-c", t0str], [], "bash -c " ++ t0str⟩ from by decide]
  rw [show (collectCommandExpansions (some ⟨"bash", []⟩)
    [.word ⟨"-c", []⟩, .word ⟨t0str, []⟩]).isEmpty = true from by decide]
  simp only [if_true]
  rw [if_pos (by decide)]
  rw [show (⟨"bash", ["-c", t0str], [], "bash -c " ++ t0str⟩ :
    ParsedCommand).args.getD 1 "" = t0str from by decide]
  rw [h]

theorem badOracle_diverges : divergesOn badOracle t0str := by
  intro fuel
  induction fuel with
  | zero => rfl
  | succ f ih =>
    rw [parseCommandFuelO]
    rw [if_neg (by decide)]
    rw [show preprocessCatHeredocs t0str = phStr from by decide]
    simp only []
    rw [show badOracle phStr = some badAst from rfl]
    simp only []
    rw [if_neg (by decide)]
    rw [walkNodes_badAst_none (parseCommandFuelO f badOracle) ih]

/-- Claim C10 counterexample: a word-shrinking oracle under which
`parseCommand` never completes — the preprocessing step lengthens the
cyclic word `$(cat <<A ... A)` to the 16-character placeholder, so word
shrinking relative to the parsed string does not bound the `sh -c`
recursion (which has no depth limit). -/
theorem word_shrinking_oracle_divergence :
    wordShrinking badOracle ∧ divergesOn badOracle t0str :=
  ⟨badOracle_shrinking, badOracle_diverges⟩

example : jsTrim "  a b  " = "a b" := by decide

example : jsTrim "   " = "" := by decide

example : basename "/usr/bin/ls" = "ls" := by decide

example : basename "a/b/" = "b" := by decide

example : basename "/" = "" := by decide

example : heredocTest "cat <<EOF" = true := by decide

example : heredocTest "ls -la" = false := by decide

example : stripHeredocSuffix "cat <<EOF extra" = "cat " := by decide

example :
    preprocessCatHeredocs "gh pr create --body \"$(cat <<EOF\nhello\nEOF\n)\"" =
      "gh pr create --body \"__HEREDOC_TEXT__\"" := by decide

example : preprocessCatHeredocs "echo $(whoami)" = "echo $(whoami)" := by decide

example :
    convertCommand (some ⟨"/usr/bin/ls", []⟩) [.assignment "FOO=1" []]
      [.word ⟨"-la", []⟩, .otherSfx "dless"] =
    some ⟨"ls", ["-la"], ["FOO=1"], "FOO=1 /usr/bin/ls -la"⟩ := by decide

example :
    parseCommandFuelO 1 (fun _ => none) "   " = some ⟨[], false, [], false⟩ := by decide

example :
    parseCommandFuelO 1 (fun _ => none) "(((" = some ⟨[], false, [], true⟩ := by decide

example :
    parseCommandFuelO 1
      (fun s => if s = "ls -la" then
        some [.command (some ⟨"ls", []⟩) [] [.word ⟨"-la", []⟩]] else none)
      "ls -la" =
    some ⟨[⟨"ls", ["-la"], [], "ls -la"⟩], false, [], false⟩ := by decide

example :
    parseCommandFuelO 2
      (fun s =>
        if s = "bash -c ls" then
          some [.command (some ⟨"bash", []⟩) [] [.word ⟨"-c", []⟩, .word ⟨"ls", []⟩]]
        else if s = "ls" then
          some [.command (some ⟨"ls", []⟩) [] []]
        else none)
      "bash -c ls" =
    some ⟨[⟨"ls", [], [], "ls"⟩], false, [], false⟩ := by decide

end Warden
